import Mathlib

/-!
Verification development for the haberai-mvp ETL pipeline.

The definitions below are a shallow embedding of the TypeScript sources:
strings are modelled as `List Char` / `String`, JavaScript numbers used for
counters and lengths as `Nat`, the 32-bit integer arithmetic of the word hash
as `Int` with explicit wrapping, and the IEEE-754 arithmetic of the fallback
embedding as real numbers.  Effectful calls (database writes, the remote
embedding service) are modelled as explicit oracle parameters returning
`Except`.
-/

set_option maxRecDepth 10000

/-! ## Character classes used by the JavaScript regexes -/

/-- Model of the JavaScript regex class `\w` = `[A-Za-z0-9_]`. -/
def isWordChar (c : Char) : Bool :=
  ('a' ≤ c && c ≤ 'z') || ('A' ≤ c && c ≤ 'Z') || ('0' ≤ c && c ≤ '9') || c = '_'

/-- Model of the JavaScript regex class `\s` (whitespace matched by `\s+`,
`String.prototype.trim`): space, tab, LF, VT, FF, CR, NBSP and the common
Unicode space separators. -/
def isJsSpace (c : Char) : Bool :=
  c = ' ' || c = '\t' || c = '\n' || c = '\x0b' || c = '\x0c' || c = '\r' ||
  c = ' ' || c = ' ' || c = ' ' || c = '﻿'

/-- ASCII lowercasing of a single character, used for the `i` regex flag
(the patterns `script`, `style`, `</script>`, `</style>` are ASCII). -/
def asciiLower (c : Char) : Char :=
  if 'A' ≤ c && c ≤ 'Z' then Char.ofNat (c.toNat + 32) else c

/-- Case-insensitive prefix test: does `l` start with pattern `pat`
(pattern given in lowercase ASCII)? -/
def ciStarts : List Char → List Char → Bool
  | [], _ => true
  | _ :: _, [] => false
  | p :: ps, c :: cs => asciiLower c = p && ciStarts ps cs

/-! ## `cleanHtmlContent` (src/lib/mongodb.ts)

`html.replace(/<script[^>]*>.*?<\/script>/gi, '')`
    `.replace(/<style[^>]*>.*?<\/style>/gi, '')`
    `.replace(/<[^>]*>/g, ' ')`
    `.replace(/\s+/g, ' ')`
    `.trim()`
-/

/-- Split a character list at the first `'>'`: returns the part before it and
the part after it, or `none` when no `'>'` occurs.  This is how the regex
fragment `[^>]*>` consumes input: everything up to and including the first
`'>'`. -/
def splitAtGt : List Char → Option (List Char × List Char)
  | [] => none
  | c :: t =>
    if c = '>' then some ([], t)
    else match splitAtGt t with
      | none => none
      | some (b, a) => some (c :: b, a)

theorem splitAtGt_none_iff (l : List Char) : splitAtGt l = none ↔ '>' ∉ l := by
  induction l with
  | nil => simp [splitAtGt]
  | cons c t ih =>
    by_cases hc : c = '>'
    · subst hc; simp [splitAtGt]
    · simp only [splitAtGt, if_neg hc]
      cases h : splitAtGt t with
      | none =>
        simp only [List.mem_cons, not_or]
        constructor
        · intro _
          exact ⟨fun hx => hc hx.symm, ih.mp h⟩
        · intro _; trivial
      | some p =>
        obtain ⟨b, a⟩ := p
        have hmem : '>' ∈ t := by
          by_contra hn
          rw [ih.mpr hn] at h
          cases h
        simp [List.mem_cons, hmem]

theorem splitAtGt_some_length {l b a : List Char} (h : splitAtGt l = some (b, a)) :
    a.length < l.length := by
  induction l generalizing b a with
  | nil => simp [splitAtGt] at h
  | cons c t ih =>
    by_cases hc : c = '>'
    · subst hc
      simp only [splitAtGt, if_true, eq_self_iff_true, Option.some.injEq, Prod.mk.injEq] at h
      obtain ⟨h1, h2⟩ := h
      subst h2
      simp [List.length_cons]
    · simp only [splitAtGt, if_neg hc] at h
      cases ht : splitAtGt t with
      | none => rw [ht] at h; cases h
      | some p =>
        rw [ht] at h
        obtain ⟨b', a'⟩ := p
        simp only [Option.some.injEq, Prod.mk.injEq] at h
        obtain ⟨h1, h2⟩ := h
        subst h2
        have hlen := ih ht
        simp only [List.length_cons]
        omega

theorem scanCiAux (l : List Char) (n : ℕ) : (l.drop n).length ≤ l.length := by
  simp [List.length_drop]

theorem dropWhileLenLe {α : Type} (p : α → Bool) (l : List α) :
    (l.dropWhile p).length ≤ l.length := by
  induction l with
  | nil => simp [List.dropWhile]
  | cons c t ih =>
    by_cases h : p c
    · simp only [List.dropWhile, h, List.length_cons]
      omega
    · simp [List.dropWhile, h]

/-- The lazy fragment `.*?CLOSE` of the script/style regexes (no `s` flag, so
`.` does not match a newline): starting at the current position, look for the
closing pattern `close`; consume one non-newline character at a time until it
matches, fail on `'\n'` or end of input.  Returns the remainder after the
closing pattern. -/
def scanCi (close : List Char) (l : List Char) : Option (List Char) :=
  if ciStarts close l then some (l.drop close.length)
  else
    match l with
    | [] => none
    | c :: t => if c = '\n' then none else scanCi close t

theorem scanCi_some_length {close l r : List Char} (h : scanCi close l = some r) :
    r.length ≤ l.length := by
  induction l with
  | nil =>
    unfold scanCi at h
    by_cases hp : ciStarts close []
    · rw [if_pos hp] at h
      simp only [Option.some.injEq] at h
      rw [← h]
      simp [List.length_drop]
    · rw [if_neg hp] at h; cases h
  | cons c t ih =>
    unfold scanCi at h
    by_cases hp : ciStarts close (c :: t)
    · rw [if_pos hp] at h
      simp only [Option.some.injEq] at h
      rw [← h]
      simp [List.length_drop]
    · rw [if_neg hp] at h
      have h' : (if c = '\n' then none else scanCi close t) = some r := h
      by_cases hn : c = '\n'
      · rw [if_pos hn] at h'; cases h'
      · rw [if_neg hn] at h'
        have := ih h'
        simp only [List.length_cons]
        omega

/-- One global-replace pass of `/<TAG[^>]*>.*?<\/TAG>/gi` with replacement
`''` (used with TAG = script and TAG = style), written with an explicit step
budget `n` so that the scan is structurally recursive; each step consumes at
least one character, so a budget of `l.length` is always sufficient (the
public wrapper `stripBlock` below supplies it).  At each `'<'` that is
followed by the tag name, the regex consumes `[^>]*>` (through the first
`'>'`) and then lazily scans for the closing tag; on failure the global scan
restarts one character later, which means at the next `'<'`. -/
def stripBlockF (tag close : List Char) : ℕ → List Char → List Char
  | 0, l => l
  | _ + 1, [] => []
  | n + 1, c :: rest =>
    if c = '<' && ciStarts tag rest then
      match splitAtGt (rest.drop tag.length) with
      | some (_, after) =>
        match scanCi close after with
        | some rest2 => stripBlockF tag close n rest2
        | none => c :: stripBlockF tag close n rest
      | none => c :: stripBlockF tag close n rest
    else c :: stripBlockF tag close n rest

/-- `html.replace(/<TAG[^>]*>.*?<\/TAG>/gi, '')`. -/
def stripBlock (tag close : List Char) (l : List Char) : List Char :=
  stripBlockF tag close l.length l

/-- One global-replace pass of `/<[^>]*>/g` with replacement `' '`, with an
explicit step budget like `stripBlockF`: each `'<'` that has a later `'>'` is
consumed together with everything up to that first `'>'` and replaced by a
single space; a `'<'` with no `'>'` after it never matches, and then nothing
later in the string can match either. -/
def stripTagsF : ℕ → List Char → List Char
  | 0, l => l
  | _ + 1, [] => []
  | n + 1, c :: rest =>
    if c = '<' then
      match splitAtGt rest with
      | some (_, after) => ' ' :: stripTagsF n after
      | none => c :: rest
    else c :: stripTagsF n rest

/-- `html.replace(/<[^>]*>/g, ' ')`. -/
def stripTags (l : List Char) : List Char :=
  stripTagsF l.length l

/-- One global-replace pass of `/\s+/g` with replacement `' '` (explicit step
budget): every maximal run of whitespace becomes a single space. -/
def collapseWsF : ℕ → List Char → List Char
  | 0, l => l
  | _ + 1, [] => []
  | n + 1, c :: rest =>
    if isJsSpace c then ' ' :: collapseWsF n (rest.dropWhile (fun d => isJsSpace d))
    else c :: collapseWsF n rest

/-- `s.replace(/\s+/g, ' ')`. -/
def collapseWs (l : List Char) : List Char :=
  collapseWsF l.length l

/-- Remove the trailing run of whitespace (second half of `trim()`). -/
def jsTrimRight : List Char → List Char
  | [] => []
  | c :: t =>
    let r := jsTrimRight t
    if r.isEmpty && isJsSpace c then [] else c :: r

/-- Model of `String.prototype.trim`. -/
def jsTrim (l : List Char) : List Char :=
  jsTrimRight (l.dropWhile (fun d => isJsSpace d))

/-- Model of `cleanHtmlContent` (src/lib/mongodb.ts lines 222-232): strip
`<script>`/`<style>` blocks, strip remaining tags into spaces, collapse
whitespace runs to single spaces, and trim. -/
def cleanHtmlContent (s : String) : String :=
  if s = "" then ""
  else
    (jsTrim (collapseWs (stripTags
      (stripBlock ("style".toList) ("</style>".toList)
        (stripBlock ("script".toList) ("</script>".toList) s.toList))))).asString

/-! ## Normal form of cleaned text, for the idempotence proof -/

/-- Does the list contain a `'>'`? -/
def hasGt (l : List Char) : Bool := l.any (fun d => d = '>')

/-- After a full `/<[^>]*>/g` pass, no remaining `'<'` is followed by a later
`'>'`; it is enough to require this of the first `'<'`. -/
def noLtGt : List Char → Bool
  | [] => true
  | c :: t => if c = '<' then !hasGt t else noLtGt t

/-- A character is whitespace-normal if it is either not whitespace at all or
exactly a plain space. -/
def spOk (c : Char) : Bool := !isJsSpace c || c == ' '

/-- Whitespace normal form scanner: every whitespace character is a plain
space, and (tracking in `prev` whether the previous character was a space) no
two adjacent spaces occur. -/
def wsNormAux (prev : Bool) : List Char → Bool
  | [] => true
  | c :: t => spOk c && !(prev && c == ' ') && wsNormAux (c == ' ') t

/-- No leading whitespace. -/
def noLead : List Char → Bool
  | [] => true
  | c :: _ => !isJsSpace c

/-- No trailing whitespace. -/
def noTrail : List Char → Bool
  | [] => true
  | [c] => !isJsSpace c
  | _ :: t => noTrail t

theorem hasGt_false_iff (l : List Char) : hasGt l = false ↔ '>' ∉ l := by
  simp only [hasGt, Bool.eq_false_iff, ne_eq, List.any_eq_true, decide_eq_true_eq, not_exists,
    not_and]
  exact ⟨fun h hm => h _ hm rfl, fun h x hx he => h (he ▸ hx)⟩

theorem mem_of_mem_dropWhile {α : Type} {p : α → Bool} {x : α} :
    ∀ {l : List α}, x ∈ l.dropWhile p → x ∈ l := by
  intro l
  induction l with
  | nil => simp [List.dropWhile]
  | cons c t ih =>
    intro h
    by_cases hc : p c
    · simp only [List.dropWhile, hc] at h
      exact List.mem_cons_of_mem c (ih h)
    · simp only [List.dropWhile, hc] at h
      exact h

theorem noLtGt_of_no_gt {l : List Char} (h : '>' ∉ l) : noLtGt l = true := by
  induction l with
  | nil => rfl
  | cons c t ih =>
    have ht : '>' ∉ t := fun hm => h (List.mem_cons_of_mem c hm)
    by_cases hc : c = '<'
    · simp [noLtGt, hc, (hasGt_false_iff t).mpr ht]
    · simp [noLtGt, hc, ih ht]

theorem noLtGt_tail {c : Char} {t : List Char} (h : noLtGt (c :: t) = true) :
    noLtGt t = true := by
  by_cases hc : c = '<'
  · simp only [noLtGt, hc, if_true, eq_self_iff_true, Bool.not_eq_true'] at h
    exact noLtGt_of_no_gt ((hasGt_false_iff t).mp h)
  · simpa [noLtGt, hc] using h

theorem noLtGt_dropWhile {p : Char → Bool} {l : List Char} (h : noLtGt l = true) :
    noLtGt (l.dropWhile p) = true := by
  induction l with
  | nil => simpa using h
  | cons c t ih =>
    by_cases hc : p c
    · simp only [List.dropWhile, hc]
      exact ih (noLtGt_tail h)
    · simpa [List.dropWhile, hc] using h

theorem wsAux_weaken {b : Bool} {l : List Char} (h : wsNormAux b l = true) :
    wsNormAux false l = true := by
  cases l with
  | nil => rfl
  | cons c t =>
    simp only [wsNormAux, Bool.and_eq_true, Bool.not_eq_true'] at h ⊢
    exact ⟨⟨h.1.1, by simp⟩, h.2⟩

theorem wsAux_tail {b : Bool} {c : Char} {t : List Char}
    (h : wsNormAux b (c :: t) = true) : wsNormAux false t = true := by
  simp only [wsNormAux, Bool.and_eq_true] at h
  exact wsAux_weaken h.2

theorem dropWhile_head_false {p : Char → Bool} (l : List Char) :
    ∀ {c t}, l.dropWhile p = c :: t → p c = false := by
  induction l with
  | nil => intro c t h; cases h
  | cons d u ih =>
    intro c t h
    by_cases hd : p d
    · simp only [List.dropWhile, hd] at h
      exact ih h
    · simp only [List.dropWhile, hd] at h
      cases h
      exact Bool.of_not_eq_true hd

/-! ### A second cleaning pass is the identity on normal-form strings -/

theorem stripBlockF_noop (tag close : List Char) :
    ∀ (n : ℕ) {l : List Char}, noLtGt l = true → stripBlockF tag close n l = l := by
  intro n
  induction n with
  | zero => intro l _; rfl
  | succ n ih =>
    intro l h
    cases l with
    | nil => rfl
    | cons c rest =>
      show (if (c = '<' && ciStarts tag rest) = true then _ else _) = _
      by_cases hc : (c = '<' && ciStarts tag rest) = true
      · rw [if_pos hc]
        have hc' : c = '<' := by
          have := (Bool.and_eq_true _ _).mp hc
          exact of_decide_eq_true this.1
        have hgt : hasGt rest = false := by
          have h' := h
          rw [hc'] at h'
          simpa [noLtGt] using h'
        have hnot : '>' ∉ rest.drop tag.length := fun hm =>
          ((hasGt_false_iff rest).mp hgt) (List.drop_subset _ rest hm)
        rw [(splitAtGt_none_iff _).mpr hnot]
        rw [ih (noLtGt_tail h)]
      · rw [if_neg hc, ih (noLtGt_tail h)]

theorem stripTagsF_noop :
    ∀ (n : ℕ) {l : List Char}, noLtGt l = true → stripTagsF n l = l := by
  intro n
  induction n with
  | zero => intro l _; rfl
  | succ n ih =>
    intro l h
    cases l with
    | nil => rfl
    | cons c rest =>
      show (if c = '<' then _ else _) = _
      by_cases hc : c = '<'
      · rw [if_pos hc]
        have hgt : hasGt rest = false := by
          have h' := h
          rw [hc] at h'
          simpa [noLtGt] using h'
        rw [(splitAtGt_none_iff rest).mpr ((hasGt_false_iff rest).mp hgt)]
      · rw [if_neg hc, ih (noLtGt_tail h)]

theorem spOk_of_wsAux {b : Bool} {c : Char} {t : List Char}
    (h : wsNormAux b (c :: t) = true) : spOk c = true := by
  simp only [wsNormAux, Bool.and_eq_true] at h
  exact h.1.1

theorem collapseWsF_noop :
    ∀ (n : ℕ) {l : List Char}, wsNormAux false l = true → collapseWsF n l = l := by
  intro n
  induction n with
  | zero => intro l _; rfl
  | succ n ih =>
    intro l h
    cases l with
    | nil => rfl
    | cons c rest =>
      show (if isJsSpace c = true then _ else _) = _
      by_cases hsp : isJsSpace c = true
      · rw [if_pos hsp]
        have hc' : c = ' ' := by
          have h1 := spOk_of_wsAux h
          simp only [spOk, hsp, Bool.not_true, Bool.false_or, beq_iff_eq] at h1
          exact h1
        have htail : wsNormAux true rest = true := by
          have h' := h
          simp only [wsNormAux, Bool.and_eq_true] at h'
          have := h'.2
          rwa [hc', show ((' ' : Char) == ' ') = true from rfl] at this
        have hdw : rest.dropWhile (fun d => isJsSpace d) = rest := by
          cases rest with
          | nil => rfl
          | cons d u =>
            have hd : isJsSpace d = false := by
              simp only [wsNormAux, Bool.and_eq_true, Bool.not_eq_true'] at htail
              have hsp' := htail.1.1
              have hne := htail.1.2
              simp only [Bool.true_and] at hne
              simp only [spOk, Bool.or_eq_true, Bool.not_eq_true'] at hsp'
              rcases hsp' with h1 | h2
              · exact h1
              · exact absurd (by simpa using h2) (by simpa using hne)
            simp [List.dropWhile, hd]
        rw [hdw, ih (wsAux_weaken htail), hc']
      · rw [if_neg hsp]
        have hne : (c == ' ') = false := by
          by_contra hb
          have : c = ' ' := by
            have := Bool.of_not_eq_false hb
            simpa using this
          rw [this] at hsp
          exact hsp rfl
        have htail : wsNormAux false rest = true := by
          have h' := h
          simp only [wsNormAux, Bool.and_eq_true] at h'
          have := h'.2
          rwa [hne] at this
        rw [ih htail]

theorem jsTrimRight_noop : ∀ {l : List Char}, noTrail l = true → jsTrimRight l = l := by
  intro l
  induction l with
  | nil => intro _; rfl
  | cons c t ih =>
    intro h
    cases t with
    | nil =>
      have hc : isJsSpace c = false := by simpa [noTrail] using h
      simp [jsTrimRight, hc]
    | cons d u =>
      have ht : noTrail (d :: u) = true := by simpa [noTrail] using h
      have hr := ih ht
      show (if ((jsTrimRight (d :: u)).isEmpty && isJsSpace c) = true then ([] : List Char)
            else c :: jsTrimRight (d :: u)) = c :: d :: u
      rw [hr]
      simp [List.isEmpty]

theorem dropWhile_noop_of_noLead {l : List Char} (h : noLead l = true) :
    l.dropWhile (fun d => isJsSpace d) = l := by
  cases l with
  | nil => rfl
  | cons c t =>
    have hc : isJsSpace c = false := by simpa [noLead] using h
    simp [List.dropWhile, hc]

theorem jsTrim_noop {l : List Char} (h1 : noLead l = true) (h2 : noTrail l = true) :
    jsTrim l = l := by
  rw [jsTrim, dropWhile_noop_of_noLead h1, jsTrimRight_noop h2]

/-! ### The cleaning pipeline produces normal-form strings -/

theorem stripTagsF_noLtGt :
    ∀ (n : ℕ) {l : List Char}, l.length ≤ n → noLtGt (stripTagsF n l) = true := by
  intro n
  induction n with
  | zero =>
    intro l hl
    have : l = [] := List.length_eq_zero.mp (Nat.le_zero.mp hl)
    subst this
    rfl
  | succ n ih =>
    intro l hl
    cases l with
    | nil => rfl
    | cons c rest =>
      show noLtGt (if c = '<' then _ else _) = true
      by_cases hc : c = '<'
      · rw [if_pos hc]
        cases hs : splitAtGt rest with
        | none =>
          have : '>' ∉ rest := (splitAtGt_none_iff rest).mp hs
          subst hc
          simp [noLtGt, (hasGt_false_iff rest).mpr this]
        | some p =>
          obtain ⟨b, a⟩ := p
          have ha : a.length ≤ n := by
            have h1 := splitAtGt_some_length hs
            have h2 : rest.length + 1 ≤ n + 1 := by simpa [List.length_cons] using hl
            omega
          have := ih ha
          simpa [noLtGt] using this
      · rw [if_neg hc]
        have hrest : rest.length ≤ n := by
          have : rest.length + 1 ≤ n + 1 := by simpa [List.length_cons] using hl
          omega
        have := ih hrest
        simpa [noLtGt, hc] using this

theorem mem_collapseWsF :
    ∀ (n : ℕ) {l : List Char} {x : Char}, x ∈ collapseWsF n l → x ∈ l ∨ x = ' ' := by
  intro n
  induction n with
  | zero => intro l x h; exact Or.inl h
  | succ n ih =>
    intro l x h
    cases l with
    | nil => cases h
    | cons c rest =>
      by_cases hsp : isJsSpace c = true
      · have hunf : collapseWsF (n + 1) (c :: rest)
            = ' ' :: collapseWsF n (rest.dropWhile (fun d => isJsSpace d)) := by
          show (if isJsSpace c = true then _ else _) = _
          rw [if_pos hsp]
        rw [hunf] at h
        rcases List.mem_cons.mp h with h1 | h2
        · exact Or.inr h1
        · rcases ih h2 with h3 | h4
          · exact Or.inl (List.mem_cons_of_mem c (mem_of_mem_dropWhile h3))
          · exact Or.inr h4
      · have hunf : collapseWsF (n + 1) (c :: rest) = c :: collapseWsF n rest := by
          show (if isJsSpace c = true then _ else _) = _
          rw [if_neg hsp]
        rw [hunf] at h
        rcases List.mem_cons.mp h with h1 | h2
        · exact Or.inl (h1 ▸ List.mem_cons_self c rest)
        · rcases ih h2 with h3 | h4
          · exact Or.inl (List.mem_cons_of_mem c h3)
          · exact Or.inr h4

theorem noLtGt_collapseWsF :
    ∀ (n : ℕ) {l : List Char}, noLtGt l = true → noLtGt (collapseWsF n l) = true := by
  intro n
  induction n with
  | zero => intro l h; exact h
  | succ n ih =>
    intro l h
    cases l with
    | nil => rfl
    | cons c rest =>
      show noLtGt (if isJsSpace c = true then _ else _) = true
      by_cases hsp : isJsSpace c = true
      · rw [if_pos hsp]
        have h1 : noLtGt (rest.dropWhile (fun d => isJsSpace d)) = true :=
          noLtGt_dropWhile (noLtGt_tail h)
        simpa [noLtGt] using ih h1
      · rw [if_neg hsp]
        by_cases hc : c = '<'
        · subst hc
          have hgt : hasGt rest = false := by simpa [noLtGt] using h
          have hno : hasGt (collapseWsF n rest) = false := by
            rw [hasGt_false_iff]
            intro hm
            rcases mem_collapseWsF n hm with h1 | h2
            · exact (hasGt_false_iff rest).mp hgt h1
            · cases h2
          simp [noLtGt, hno]
        · have := ih (noLtGt_tail h)
          simpa [noLtGt, hc] using this

theorem mem_jsTrimRight : ∀ {l : List Char} {x : Char}, x ∈ jsTrimRight l → x ∈ l := by
  intro l
  induction l with
  | nil => intro x h; cases h
  | cons c t ih =>
    intro x h
    by_cases hcond : ((jsTrimRight t).isEmpty && isJsSpace c) = true
    · rw [show jsTrimRight (c :: t) = [] from by
        show (if ((jsTrimRight t).isEmpty && isJsSpace c) = true then _ else _) = _
        rw [if_pos hcond]] at h
      cases h
    · rw [show jsTrimRight (c :: t) = c :: jsTrimRight t from by
        show (if ((jsTrimRight t).isEmpty && isJsSpace c) = true then _ else _) = _
        rw [if_neg hcond]] at h
      rcases List.mem_cons.mp h with h1 | h2
      · exact h1 ▸ List.mem_cons_self c t
      · exact List.mem_cons_of_mem c (ih h2)

theorem noLtGt_jsTrimRight {l : List Char} (h : noLtGt l = true) :
    noLtGt (jsTrimRight l) = true := by
  induction l with
  | nil => rfl
  | cons c t ih =>
    by_cases hcond : ((jsTrimRight t).isEmpty && isJsSpace c) = true
    · rw [show jsTrimRight (c :: t) = [] from by
        show (if ((jsTrimRight t).isEmpty && isJsSpace c) = true then _ else _) = _
        rw [if_pos hcond]]
      rfl
    · rw [show jsTrimRight (c :: t) = c :: jsTrimRight t from by
        show (if ((jsTrimRight t).isEmpty && isJsSpace c) = true then _ else _) = _
        rw [if_neg hcond]]
      by_cases hc : c = '<'
      · subst hc
        have hgt : hasGt t = false := by simpa [noLtGt] using h
        have : hasGt (jsTrimRight t) = false := by
          rw [hasGt_false_iff]
          intro hm
          exact (hasGt_false_iff t).mp hgt (mem_jsTrimRight hm)
        simp [noLtGt, this]
      · have := ih (noLtGt_tail h)
        simpa [noLtGt, hc] using this

theorem wsAux_dropWhile {p : Char → Bool} {l : List Char}
    (h : wsNormAux false l = true) :
    wsNormAux false (l.dropWhile p) = true := by
  induction l with
  | nil => simpa using h
  | cons c t ih =>
    by_cases hc : p c
    · simp only [List.dropWhile, hc]
      exact ih (wsAux_tail h)
    · simpa [List.dropWhile, hc] using h

theorem wsAux_jsTrimRight :
    ∀ {l : List Char} {b : Bool}, wsNormAux b l = true → wsNormAux b (jsTrimRight l) = true := by
  intro l
  induction l with
  | nil => intro b h; exact h
  | cons c t ih =>
    intro b h
    by_cases hcond : ((jsTrimRight t).isEmpty && isJsSpace c) = true
    · rw [show jsTrimRight (c :: t) = [] from by
        show (if ((jsTrimRight t).isEmpty && isJsSpace c) = true then _ else _) = _
        rw [if_pos hcond]]
      rfl
    · rw [show jsTrimRight (c :: t) = c :: jsTrimRight t from by
        show (if ((jsTrimRight t).isEmpty && isJsSpace c) = true then _ else _) = _
        rw [if_neg hcond]]
      simp only [wsNormAux, Bool.and_eq_true] at h ⊢
      exact ⟨h.1, ih h.2⟩

theorem noLead_dropWhile (l : List Char) :
    noLead (l.dropWhile (fun d => isJsSpace d)) = true := by
  cases h : l.dropWhile (fun d => isJsSpace d) with
  | nil => rfl
  | cons c t =>
    have := dropWhile_head_false l h
    simpa [noLead] using this

theorem wsAux_collapseWsF :
    ∀ (n : ℕ) {l : List Char}, l.length ≤ n →
      wsNormAux false (collapseWsF n l) = true ∧
        (noLead l = true → wsNormAux true (collapseWsF n l) = true) := by
  intro n
  induction n with
  | zero =>
    intro l hl
    have : l = [] := List.length_eq_zero.mp (Nat.le_zero.mp hl)
    subst this
    exact ⟨rfl, fun _ => rfl⟩
  | succ n ih =>
    intro l hl
    cases l with
    | nil => exact ⟨rfl, fun _ => rfl⟩
    | cons c rest =>
      have hlen : rest.length ≤ n := by
        have : rest.length + 1 ≤ n + 1 := by simpa [List.length_cons] using hl
        omega
      by_cases hsp : isJsSpace c = true
      · have hunf : collapseWsF (n + 1) (c :: rest)
            = ' ' :: collapseWsF n (rest.dropWhile (fun d => isJsSpace d)) := by
          show (if isJsSpace c = true then _ else _) = _
          rw [if_pos hsp]
        rw [hunf]
        have hdlen : (rest.dropWhile (fun d => isJsSpace d)).length ≤ n :=
          le_trans (dropWhileLenLe _ rest) hlen
        have hX := (ih hdlen).2 (noLead_dropWhile rest)
        constructor
        · simp only [wsNormAux, Bool.and_eq_true]
          exact ⟨⟨by decide, by decide⟩, hX⟩
        · intro hlead
          rw [noLead] at hlead
          rw [hsp] at hlead
          cases hlead
      · have hunf : collapseWsF (n + 1) (c :: rest) = c :: collapseWsF n rest := by
          show (if isJsSpace c = true then _ else _) = _
          rw [if_neg hsp]
        rw [hunf]
        have hspf : isJsSpace c = false := Bool.of_not_eq_true hsp
        have hne : (c == ' ') = false := by
          by_contra hb
          have hceq : c = ' ' := by simpa using Bool.of_not_eq_false hb
          rw [hceq] at hspf
          cases hspf
        have hX := (ih hlen).1
        constructor
        · simp only [wsNormAux, Bool.and_eq_true, hne]
          refine ⟨⟨by simp [spOk, hspf], by simp⟩, hX⟩
        · intro _
          simp only [wsNormAux, Bool.and_eq_true, hne]
          refine ⟨⟨by simp [spOk, hspf], by simp⟩, hX⟩

theorem jsTrimRight_shape (c : Char) (t : List Char) :
    jsTrimRight (c :: t) = [] ∨ jsTrimRight (c :: t) = c :: jsTrimRight t := by
  by_cases hcond : ((jsTrimRight t).isEmpty && isJsSpace c) = true
  · left
    show (if ((jsTrimRight t).isEmpty && isJsSpace c) = true then _ else _) = _
    rw [if_pos hcond]
  · right
    show (if ((jsTrimRight t).isEmpty && isJsSpace c) = true then _ else _) = _
    rw [if_neg hcond]

theorem noLead_jsTrim (l : List Char) : noLead (jsTrim l) = true := by
  rw [jsTrim]
  cases h : l.dropWhile (fun d => isJsSpace d) with
  | nil => rfl
  | cons c t =>
    have hc : isJsSpace c = false := dropWhile_head_false l h
    rcases jsTrimRight_shape c t with h1 | h2
    · rw [h1]; rfl
    · rw [h2]
      simpa [noLead] using hc

theorem noTrail_jsTrimRight (l : List Char) : noTrail (jsTrimRight l) = true := by
  induction l with
  | nil => rfl
  | cons c t ih =>
    by_cases hcond : ((jsTrimRight t).isEmpty && isJsSpace c) = true
    · rw [show jsTrimRight (c :: t) = [] from by
        show (if ((jsTrimRight t).isEmpty && isJsSpace c) = true then _ else _) = _
        rw [if_pos hcond]]
      rfl
    · rw [show jsTrimRight (c :: t) = c :: jsTrimRight t from by
        show (if ((jsTrimRight t).isEmpty && isJsSpace c) = true then _ else _) = _
        rw [if_neg hcond]]
      cases hr : jsTrimRight t with
      | nil =>
        have hc : isJsSpace c = false := by
          rw [hr] at hcond
          simpa [List.isEmpty] using hcond
        simpa [noTrail] using hc
      | cons d u =>
        have := ih
        rw [hr] at this
        simpa [noTrail] using this

theorem noTrail_jsTrim (l : List Char) : noTrail (jsTrim l) = true :=
  noTrail_jsTrimRight _

theorem noLtGt_jsTrim {l : List Char} (h : noLtGt l = true) : noLtGt (jsTrim l) = true :=
  noLtGt_jsTrimRight (noLtGt_dropWhile h)

theorem wsAux_jsTrim {l : List Char} (h : wsNormAux false l = true) :
    wsNormAux false (jsTrim l) = true :=
  wsAux_jsTrimRight (wsAux_dropWhile h)

/-- C8: cleaning is idempotent — for every input string `x`,
`cleanHtmlContent (cleanHtmlContent x) = cleanHtmlContent x`: the output of a
full cleaning pass contains no remaining tag pattern and is in whitespace
normal form, and on such strings every pass of the pipeline is the
identity. -/
theorem cleanHtmlContent_idempotent (s : String) :
    cleanHtmlContent (cleanHtmlContent s) = cleanHtmlContent s := by
  by_cases hs : s = ""
  · subst hs; rfl
  · have hy : cleanHtmlContent s
        = (jsTrim (collapseWs (stripTags
            (stripBlock ("style".toList) ("</style>".toList)
              (stripBlock ("script".toList) ("</script>".toList) s.toList))))).asString := by
      rw [cleanHtmlContent, if_neg hs]
    rw [hy]
    set v := stripTags (stripBlock ("style".toList) ("</style>".toList)
      (stripBlock ("script".toList) ("</script>".toList) s.toList)) with hv
    set z := jsTrim (collapseWs v) with hz
    by_cases hz0 : z.asString = ""
    · rw [cleanHtmlContent, if_pos hz0, hz0]
    · rw [cleanHtmlContent, if_neg hz0, List.toList_asString]
      have hv1 : noLtGt v = true := by
        rw [hv, stripTags]
        exact stripTagsF_noLtGt _ le_rfl
      have hw1 : noLtGt (collapseWs v) = true := by
        rw [collapseWs]
        exact noLtGt_collapseWsF _ hv1
      have h1 : noLtGt z = true := by
        rw [hz]
        exact noLtGt_jsTrim hw1
      have hw2 : wsNormAux false (collapseWs v) = true := by
        rw [collapseWs]
        exact (wsAux_collapseWsF _ le_rfl).1
      have h2 : wsNormAux false z = true := by
        rw [hz]
        exact wsAux_jsTrim hw2
      have h3 : noLead z = true := by
        rw [hz]
        exact noLead_jsTrim _
      have h4 : noTrail z = true := by
        rw [hz]
        exact noTrail_jsTrim _
      rw [show stripBlock ("script".toList) ("</script>".toList) z = z from by
        rw [stripBlock]; exact stripBlockF_noop _ _ _ h1]
      rw [show stripBlock ("style".toList) ("</style>".toList) z = z from by
        rw [stripBlock]; exact stripBlockF_noop _ _ _ h1]
      rw [show stripTags z = z from by
        rw [stripTags]; exact stripTagsF_noop _ h1]
      rw [show collapseWs z = z from by
        rw [collapseWs]; exact collapseWsF_noop _ h2]
      rw [jsTrim_noop h3 h4]

/-! ## Data model (src/types/mongodb.ts)

A `MongoPost` document.  The opaque sortable ObjectId `_id` is modelled as a
natural number (its string form via `idToString`); timestamps are abstract
ticks; the untyped fallback fields `post.text` / `post.body` read by the
permissive validator are modelled as optional strings; the nested attachment
metadata is an opaque optional blob. -/
structure MongoPost where
  id : ℕ
  title : String
  contentText : Option String
  text : Option String
  body : Option String
  summary : Option String
  seo_description : Option String
  seo_keywords : Option String
  status : Option Int
  published_at : Option ℕ
  created_at : ℕ
  categories : List String
  topics : List String
  slug : Option String
  old_slug : Option String
  integer_id : Option Int
  old_id : Option Int
  hit : Option ℕ
  author_id : Option String
  source_id : Option String
  location : Option Int
  is_old_record : Option Bool
  weight : Option Int
  show_on_mainpage : Option Bool
  attachments : Option String
deriving DecidableEq

/-- `_id.toString()`. -/
def idToString (n : ℕ) : String := toString n

/-- JavaScript truthiness of an optional string: `undefined` and `''` are
falsy, every other string is truthy. -/
def truthyStr : Option String → Bool
  | none => false
  | some s => s != ""

/-- String interpolation of a possibly-undefined numeric status
(template literals print `undefined` for a missing value). -/
def statusShow : Option Int → String
  | none => "undefined"
  | some n => toString n

/-- `issues.join(', ')`. -/
def joinComma (l : List String) : String := String.intercalate ", " l

/-- Result of `validatePostContent`. -/
structure ValidationResult where
  isValid : Bool
  issues : List String
deriving DecidableEq

/-- Model of the strict `validatePostContent` (src/lib/mongodb.ts lines
235-270): title non-blank; `content.text` present and non-blank; cleaned
`content.text` at least 50 characters; title at most 200 characters; status
exactly 1. -/
def validatePostContent (post : MongoPost) : ValidationResult :=
  let ct := post.contentText.getD ""
  let issues :=
    (if post.title = "" ∨ jsTrim post.title.toList = [] then
      ["Missing or empty title"] else []) ++
    (if ¬ truthyStr post.contentText = true ∨ jsTrim ct.toList = [] then
      ["Missing or empty content"] else []) ++
    (if (cleanHtmlContent ct).length < 50 then
      ["Content too short (minimum 50 characters)"] else []) ++
    (if post.title ≠ "" ∧ 200 < post.title.length then
      ["Title too long (maximum 200 characters)"] else []) ++
    (if post.status ≠ some 1 then
      ["Post status is " ++ statusShow post.status ++ " (not published)"] else [])
  { isValid := issues.isEmpty, issues := issues }

/-- The permissive validator's content resolution (`src/unnamed/part_004`
lines 289-301): try `content.text`, then the untyped `text` and `body`
fields, then `summary`, then `seo_description`, stopping at the first truthy
(non-empty) one; empty string when all fail. -/
def resolveContent (post : MongoPost) : String :=
  if truthyStr post.contentText then post.contentText.getD ""
  else if truthyStr post.text then post.text.getD ""
  else if truthyStr post.body then post.body.getD ""
  else if truthyStr post.summary then post.summary.getD ""
  else if truthyStr post.seo_description then post.seo_description.getD ""
  else ""

/-- Model of the permissive `validatePostContent` (src/unnamed/part_004 lines
278-327): title non-blank; body resolvable from the candidate fields and
non-blank; cleaned resolved body at least 5 characters; title at most 500
characters; status undefined, 0 or 1. -/
def validatePostContentRelaxed (post : MongoPost) : ValidationResult :=
  let r := resolveContent post
  let cleanLen := (cleanHtmlContent r).length
  let issues :=
    (if post.title = "" ∨ jsTrim post.title.toList = [] then
      ["Missing or empty title"] else []) ++
    (if r = "" ∨ jsTrim r.toList = [] then
      ["Missing or empty content in all possible fields"] else []) ++
    (if cleanLen < 5 then
      ["Content too short (" ++ toString cleanLen ++ " chars, minimum 5 characters)"] else []) ++
    (if post.title ≠ "" ∧ 500 < post.title.length then
      ["Title too long (maximum 500 characters)"] else []) ++
    (if post.status ≠ none ∧ post.status ≠ some 1 ∧ post.status ≠ some 0 then
      ["Post status is " ++ statusShow post.status ++ " (unusual status)"] else [])
  { isValid := issues.isEmpty, issues := issues }

theorem isEmpty_append_ifSingleton {c : Prop} [Decidable c] (s : String) (x : List String) :
    (x ++ (if c then [s] else [])).isEmpty = true ↔ (x.isEmpty = true ∧ ¬ c) := by
  split_ifs with h <;> simp [h]

theorem isEmpty_ifSingleton {c : Prop} [Decidable c] (s : String) :
    (if c then [s] else ([] : List String)).isEmpty = true ↔ ¬ c := by
  split_ifs with h <;> simp [h]

theorem strictValid_iff (post : MongoPost) :
    (validatePostContent post).isValid = true ↔
      (jsTrim post.title.toList ≠ [] ∧
       (truthyStr post.contentText = true ∧ jsTrim ((post.contentText.getD "").toList) ≠ []) ∧
       50 ≤ (cleanHtmlContent (post.contentText.getD "")).length ∧
       post.title.length ≤ 200 ∧
       post.status = some 1) := by
  have hts : jsTrim post.title.toList ≠ [] → ¬ post.title = "" := by
    intro hne he
    apply hne
    rw [he]
    rfl
  simp only [validatePostContent]
  rw [isEmpty_append_ifSingleton, isEmpty_append_ifSingleton, isEmpty_append_ifSingleton,
    isEmpty_append_ifSingleton, isEmpty_ifSingleton]
  constructor
  · rintro ⟨⟨⟨⟨n1, n2⟩, n3⟩, n4⟩, n5⟩
    push_neg at n1
    refine ⟨n1.2, ?_, ?_, ?_, ?_⟩
    · push_neg at n2
      exact ⟨n2.1, n2.2⟩
    · exact Nat.not_lt.mp n3
    · by_cases ht : post.title = ""
      · rw [ht]; simp
      · push_neg at n4
        exact n4 ht
    · exact not_not.mp n5
  · rintro ⟨r1, ⟨r2a, r2b⟩, r3, r4, r5⟩
    refine ⟨⟨⟨⟨?_, ?_⟩, ?_⟩, ?_⟩, ?_⟩
    · rintro (h | h)
      · exact (hts r1) h
      · exact r1 h
    · rintro (h | h)
      · exact h r2a
      · exact r2b h
    · exact Nat.not_lt.mpr r3
    · rintro ⟨hne, hgt⟩
      exact absurd hgt (Nat.not_lt.mpr r4)
    · intro h
      exact h r5

theorem relaxedValid_iff (post : MongoPost) :
    (validatePostContentRelaxed post).isValid = true ↔
      (jsTrim post.title.toList ≠ [] ∧
       (resolveContent post ≠ "" ∧ jsTrim (resolveContent post).toList ≠ []) ∧
       5 ≤ (cleanHtmlContent (resolveContent post)).length ∧
       post.title.length ≤ 500 ∧
       (post.status = none ∨ post.status = some 1 ∨ post.status = some 0)) := by
  have hts : jsTrim post.title.toList ≠ [] → ¬ post.title = "" := by
    intro hne he
    apply hne
    rw [he]
    rfl
  simp only [validatePostContentRelaxed]
  rw [isEmpty_append_ifSingleton, isEmpty_append_ifSingleton, isEmpty_append_ifSingleton,
    isEmpty_append_ifSingleton, isEmpty_ifSingleton]
  constructor
  · rintro ⟨⟨⟨⟨n1, n2⟩, n3⟩, n4⟩, n5⟩
    push_neg at n1 n2
    refine ⟨n1.2, ⟨n2.1, n2.2⟩, Nat.not_lt.mp n3, ?_, ?_⟩
    · by_cases ht : post.title = ""
      · rw [ht]; simp
      · push_neg at n4
        exact n4 ht
    · push_neg at n5
      by_cases h0 : post.status = none
      · exact Or.inl h0
      · by_cases h1 : post.status = some 1
        · exact Or.inr (Or.inl h1)
        · exact Or.inr (Or.inr (n5 h0 h1))
  · rintro ⟨r1, ⟨r2a, r2b⟩, r3, r4, r5⟩
    refine ⟨⟨⟨⟨?_, ?_⟩, Nat.not_lt.mpr r3⟩, ?_⟩, ?_⟩
    · rintro (h | h)
      · exact (hts r1) h
      · exact r1 h
    · rintro (h | h)
      · exact r2a h
      · exact r2b h
    · rintro ⟨hne, hgt⟩
      exact absurd hgt (Nat.not_lt.mpr r4)
    · rintro ⟨hn, h1, h0⟩
      rcases r5 with h | h | h
      · exact hn h
      · exact h1 h
      · exact h0 h

theorem title_issue_strict {post : MongoPost} (h : post.title = "") :
    "Missing or empty title" ∈ (validatePostContent post).issues := by
  simp only [validatePostContent]
  rw [if_pos (Or.inl h)]
  exact List.mem_append_left _ (List.mem_append_left _ (List.mem_append_left _
    (List.mem_append_left _ (List.mem_singleton.mpr rfl))))

theorem title_issue_relaxed {post : MongoPost} (h : post.title = "") :
    "Missing or empty title" ∈ (validatePostContentRelaxed post).issues := by
  simp only [validatePostContentRelaxed]
  rw [if_pos (Or.inl h)]
  exact List.mem_append_left _ (List.mem_append_left _ (List.mem_append_left _
    (List.mem_append_left _ (List.mem_singleton.mpr rfl))))

/-- The body-text resolution exactly as C3's words state it: primary
rich-text field, then the plain alternates, then the summary, then the SEO
description, first non-empty wins.  Stated from the claim for the refinement
comparison. -/
def claimBodyText (post : MongoPost) : String :=
  if truthyStr post.contentText then post.contentText.getD ""
  else if truthyStr post.text then post.text.getD ""
  else if truthyStr post.body then post.body.getD ""
  else if truthyStr post.summary then post.summary.getD ""
  else if truthyStr post.seo_description then post.seo_description.getD ""
  else ""

/-- C3's validation rules exactly as the claim states them for the strict
mode — in particular with the body text resolvable from the full candidate
chain; this is the reading the code refutes. -/
def claimValidStrict (post : MongoPost) : Bool :=
  (!(jsTrim post.title.toList).isEmpty) &&
  (claimBodyText post != "") &&
  decide (50 ≤ (cleanHtmlContent (claimBodyText post)).length) &&
  decide (post.title.length ≤ 200) &&
  (post.status == some 1)

/-- The amended C3 rules for the strict validator: the body text comes only
from the primary rich-text field `content.text` (present and non-blank),
cleaned body at least 50 characters, non-blank title of at most 200
characters, status exactly 1. -/
def specStrictRules (post : MongoPost) : Prop :=
  jsTrim post.title.toList ≠ [] ∧
  (truthyStr post.contentText = true ∧ jsTrim ((post.contentText.getD "").toList) ≠ []) ∧
  50 ≤ (cleanHtmlContent (post.contentText.getD "")).length ∧
  post.title.length ≤ 200 ∧
  post.status = some 1

/-- The C3 rules for the permissive validator, from the claim's words: body
resolvable through the candidate chain and non-blank, cleaned body at least 5
characters, non-blank title of at most 500 characters, status undefined, 0 or
1. -/
def specRelaxedRules (post : MongoPost) : Prop :=
  jsTrim post.title.toList ≠ [] ∧
  (claimBodyText post ≠ "" ∧ jsTrim (claimBodyText post).toList ≠ []) ∧
  5 ≤ (cleanHtmlContent (claimBodyText post)).length ∧
  post.title.length ≤ 500 ∧
  (post.status = none ∨ post.status = some 1 ∨ post.status = some 0)

theorem claimBodyText_eq_resolveContent (post : MongoPost) :
    claimBodyText post = resolveContent post := rfl

/-- A post with no `content.text` but a 60-character summary: by C3's words
the strict rules pass (the body is resolvable from the summary candidate),
but the strict validator rejects it. -/
def cpostA : MongoPost :=
  { id := 7, title := "T", contentText := none, text := none, body := none,
    summary := some "aaaaaaaaaaaaaaaaaaaaaaaaaaaaaaaaaaaaaaaaaaaaaaaaaaaaaaaaaaaa",
    seo_description := none, seo_keywords := none, status := some 1,
    published_at := some 100, created_at := 50, categories := [], topics := [],
    slug := none, old_slug := none, integer_id := none, old_id := none, hit := none,
    author_id := none, source_id := none, location := none, is_old_record := none,
    weight := none, show_on_mainpage := none, attachments := none }

/-- C3 counterexample: the claim as stated fails on the strict validator —
`cpostA` satisfies every rule of the claim (its body text is resolvable from
the summary candidate and 60 characters long after cleaning), yet
`validatePostContent` reports it invalid, because the strict validator reads
the body only from `content.text`. -/
theorem validatePostContent_candidate_chain_counterexample :
    claimValidStrict cpostA = true ∧ (validatePostContent cpostA).isValid = false := by
  constructor
  · decide
  · decide

/-- C3 (amended): the strict validator accepts exactly the records satisfying
the amended strict rules (body from `content.text` only: present and
non-blank, cleaned length at least 50, title non-blank and at most 200
characters, status exactly 1); the permissive validator accepts exactly the
records satisfying the claim's rules with the candidate chain (cleaned length
at least 5, title at most 500 characters, status undefined, 0 or 1); and a
record with an empty title always carries the issue "Missing or empty title"
in both validators. -/
theorem validatePostContent_modes_characterization (post : MongoPost) :
    ((validatePostContent post).isValid = true ↔ specStrictRules post) ∧
    ((validatePostContentRelaxed post).isValid = true ↔ specRelaxedRules post) ∧
    (post.title = "" →
      "Missing or empty title" ∈ (validatePostContent post).issues ∧
      "Missing or empty title" ∈ (validatePostContentRelaxed post).issues) := by
  refine ⟨strictValid_iff post, ?_, fun h => ⟨title_issue_strict h, title_issue_relaxed h⟩⟩
  rw [relaxedValid_iff post]
  rw [specRelaxedRules, claimBodyText_eq_resolveContent]

/-- A concrete post with an empty title, used to witness the empty-title part
of C3. -/
def cpostB : MongoPost :=
  { cpostA with title := "" }

/-- Witness for C3: instantiating the characterization at a concrete post
with an empty title. -/
theorem validatePostContent_modes_characterization_witness :
    "Missing or empty title" ∈ (validatePostContent cpostB).issues ∧
    "Missing or empty title" ∈ (validatePostContentRelaxed cpostB).issues :=
  (validatePostContent_modes_characterization cpostB).2.2 rfl

/-! ## `ETLService.transformPost` (src/unnamed/part_003 lines 53-118)

Transforms a MongoDB post into the Supabase news-article shape.  The
`new Date().toISOString()` wall-clock reads are modelled by an explicit `now`
parameter. -/

/-- The `source_metadata` JSON blob built by `transformPost`. -/
structure SourceMeta where
  mongo_id : String
  integer_id : Option Int
  old_id : Option Int
  slug : Option String
  old_slug : Option String
  categories : List String
  topics : List String
  hit_count : ℕ
  seo_keywords : Option String
  author_id : Option String
  source_id : Option String
  location : Option Int
  is_old_record : Option Bool
  weight : Option Int
  show_on_mainpage : Option Bool
  attachments : Option String
  original_raw_content : String
  migration_timestamp : String
deriving DecidableEq

/-- The `data` payload of a successful transformation. -/
structure TransformData where
  title : String
  content : String
  summary : Option String
  published_at : Option ℕ
  channel_id : String
  source_metadata : SourceMeta
deriving DecidableEq

/-- `TransformationResult` (src/types/mongodb.ts). -/
structure TransformationResult where
  success : Bool
  data : Option TransformData
  error : Option String
  skipped : Bool
  skip_reason : Option String
deriving DecidableEq

/-- Model of `transformPost`: validate (strict), short-circuit to a skip on
validation failure, clean the body, derive the summary (first 200 characters
plus an ellipsis marker when truncating) when neither `summary` nor
`seo_description` is truthy, and pack the source metadata. -/
def transformPost (now : String) (post : MongoPost) (channelId : String) :
    TransformationResult :=
  let validation := validatePostContent post
  if validation.isValid = false then
    { success := false, data := none, error := none, skipped := true,
      skip_reason := some ("Validation failed: " ++ joinComma validation.issues) }
  else
    let rawContent := post.contentText.getD ""
    let cleanContent := cleanHtmlContent rawContent
    let summary0 :=
      if truthyStr post.summary then post.summary.getD ""
      else if truthyStr post.seo_description then post.seo_description.getD ""
      else ""
    let summary1 :=
      if summary0 = "" ∧ cleanContent ≠ "" then
        ((cleanContent.toList.take 200).asString) ++
          (if 200 < cleanContent.length then "..." else "")
      else summary0
    { success := true,
      data := some
        { title := post.title, content := cleanContent,
          summary := if summary1 = "" then none else some summary1,
          published_at := post.published_at, channel_id := channelId,
          source_metadata :=
            { mongo_id := idToString post.id, integer_id := post.integer_id,
              old_id := post.old_id, slug := post.slug, old_slug := post.old_slug,
              categories := post.categories, topics := post.topics,
              hit_count := post.hit.getD 0, seo_keywords := post.seo_keywords,
              author_id := post.author_id, source_id := post.source_id,
              location := post.location, is_old_record := post.is_old_record,
              weight := post.weight, show_on_mainpage := post.show_on_mainpage,
              attachments := post.attachments, original_raw_content := rawContent,
              migration_timestamp := now } },
      error := none, skipped := false, skip_reason := none }

theorem asString_ne_empty {l : List Char} (h : l ≠ []) : l.asString ≠ "" := by
  intro he
  apply h
  have := congrArg String.toList he
  rwa [List.toList_asString] at this

theorem append_marker_ne_empty (s : String) : s ++ "..." ≠ "" := by
  intro h
  have hlen := congrArg String.length h
  rw [String.length_append] at hlen
  have h3 : ("..." : String).length = 3 := rfl
  have h0 : ("" : String).length = 0 := rfl
  rw [h3, h0] at hlen
  omega

/-- C7: summary derivation — for every record that passes validation and has
neither a truthy `summary` nor a truthy `seo_description`, the transformer's
derived summary is exactly the first 200 characters of the cleaned body
followed by the marker `"..."` when the cleaned body is longer than 200
characters, and exactly the cleaned body with no marker otherwise. -/
theorem transformPost_summary_derivation (now : String) (post : MongoPost)
    (channelId : String)
    (hvalid : (validatePostContent post).isValid = true)
    (hsum : truthyStr post.summary = false)
    (hseo : truthyStr post.seo_description = false) :
    ∃ d, (transformPost now post channelId).data = some d ∧
      (200 < (cleanHtmlContent (post.contentText.getD "")).length →
        d.summary = some
          ((((cleanHtmlContent (post.contentText.getD "")).toList.take 200).asString) ++ "...")) ∧
      ((cleanHtmlContent (post.contentText.getD "")).length ≤ 200 →
        d.summary = some (cleanHtmlContent (post.contentText.getD ""))) := by
  have h50 : 50 ≤ (cleanHtmlContent (post.contentText.getD "")).length :=
    ((strictValid_iff post).mp hvalid).2.2.1
  have hcne : cleanHtmlContent (post.contentText.getD "") ≠ "" := by
    intro h
    rw [h] at h50
    simp [String.length] at h50
  simp [transformPost, hvalid, hsum, hseo, hcne]
  constructor
  · intro hgt
    rw [if_pos hgt]
    exact ⟨append_marker_ne_empty _, rfl⟩
  · intro hle
    rw [if_neg (Nat.not_lt.mpr hle)]
    have htake : List.take 200 (cleanHtmlContent (post.contentText.getD "")).data
        = (cleanHtmlContent (post.contentText.getD "")).data :=
      List.take_of_length_le hle
    rw [htake]
    rw [show ((cleanHtmlContent (post.contentText.getD "")).data).asString
        = cleanHtmlContent (post.contentText.getD "")
      from String.asString_toList _]
    simp [hcne]

/-- Witness post for C7: valid under the strict rules, with no summary and no
SEO description. -/
def cpostC : MongoPost :=
  { cpostA with
    contentText := some "aaaaaaaaaaaaaaaaaaaaaaaaaaaaaaaaaaaaaaaaaaaaaaaaaaaaaaaaaaaa",
    summary := none }

/-- Witness for C7: the summary-derivation theorem instantiated at a concrete
valid record. -/
theorem transformPost_summary_derivation_witness :
    ∃ d, (transformPost "t0" cpostC "ch").data = some d ∧
      (200 < (cleanHtmlContent (cpostC.contentText.getD "")).length →
        d.summary = some
          ((((cleanHtmlContent (cpostC.contentText.getD "")).toList.take 200).asString) ++ "...")) ∧
      ((cleanHtmlContent (cpostC.contentText.getD "")).length ≤ 200 →
        d.summary = some (cleanHtmlContent (cpostC.contentText.getD ""))) :=
  transformPost_summary_derivation "t0" cpostC "ch" (by decide) (by decide) (by decide)

/-! ## `ETLService.processBatch` (src/unnamed/part_003 lines 121-175)

The Supabase insert `newsArticlesApi.create` is modelled by a write oracle
`wr : ArticleInsert → Except String Unit`; an `Except.error` models the
rejected promise caught by the per-record `try/catch`.  Successful writes are
logged in the `written` field so the frame effect is visible. -/

/-- The argument of `newsArticlesApi.create`: the transformation data plus
`analysis_completed: false` and the migration timestamp. -/
structure ArticleInsert where
  data : TransformData
  analysis_completed : Bool
  migrated_at : String
deriving DecidableEq

/-- Result of `processBatch`, extended with the log of successful writes. -/
structure BatchResult where
  successful : ℕ
  failed : ℕ
  skipped : ℕ
  errors : List String
  written : List ArticleInsert
deriving DecidableEq

def emptyBatch : BatchResult :=
  { successful := 0, failed := 0, skipped := 0, errors := [], written := [] }

/-- Componentwise combination of batch results. -/
def mergeBatch (a b : BatchResult) : BatchResult :=
  { successful := a.successful + b.successful, failed := a.failed + b.failed,
    skipped := a.skipped + b.skipped, errors := a.errors ++ b.errors,
    written := a.written ++ b.written }

/-- One iteration of the `for (const post of posts)` loop of `processBatch`:
transform, count a skip or a failure, or insert and count a success; a
rejected insert is caught, counted as failed and recorded in the error
list. -/
def processPost (now : String) (wr : ArticleInsert → Except String Unit)
    (channelId : String) (acc : BatchResult) (post : MongoPost) : BatchResult :=
  let t := transformPost now post channelId
  if t.success = false then
    if t.skipped then { acc with skipped := acc.skipped + 1 }
    else
      let msg := "Post " ++ idToString post.id ++ ": " ++ t.error.getD "undefined"
      { acc with failed := acc.failed + 1, errors := acc.errors ++ [msg] }
  else
    match t.data with
    | none =>
      let msg := "Post " ++ idToString post.id ++ ": No transformation data"
      { acc with failed := acc.failed + 1, errors := acc.errors ++ [msg] }
    | some d =>
      let article : ArticleInsert :=
        { data := d, analysis_completed := false, migrated_at := now }
      match wr article with
      | Except.ok _ =>
        { acc with successful := acc.successful + 1, written := acc.written ++ [article] }
      | Except.error e =>
        let msg := "Post " ++ idToString post.id ++ ": " ++ e
        { acc with failed := acc.failed + 1, errors := acc.errors ++ [msg] }

/-- Model of `ETLService.processBatch`. -/
def processBatch (now : String) (wr : ArticleInsert → Except String Unit)
    (posts : List MongoPost) (channelId : String) : BatchResult :=
  posts.foldl (processPost now wr channelId) emptyBatch

theorem processPost_acc (now : String) (wr : ArticleInsert → Except String Unit)
    (channelId : String) (acc : BatchResult) (post : MongoPost) :
    processPost now wr channelId acc post
      = mergeBatch acc (processPost now wr channelId emptyBatch post) := by
  simp only [processPost]
  by_cases h1 : (transformPost now post channelId).success = false
  · rw [if_pos h1, if_pos h1]
    by_cases h2 : (transformPost now post channelId).skipped = true
    · rw [if_pos h2, if_pos h2]
      simp [mergeBatch, emptyBatch]
    · rw [if_neg h2, if_neg h2]
      simp [mergeBatch, emptyBatch]
  · rw [if_neg h1, if_neg h1]
    cases hd : (transformPost now post channelId).data with
    | none => simp [mergeBatch, emptyBatch]
    | some d =>
      cases hw : wr { data := d, analysis_completed := false, migrated_at := now } with
      | ok u => simp [hw, mergeBatch, emptyBatch]
      | error e => simp [hw, mergeBatch, emptyBatch]

theorem mergeBatch_assoc (a b c : BatchResult) :
    mergeBatch (mergeBatch a b) c = mergeBatch a (mergeBatch b c) := by
  simp [mergeBatch, Nat.add_assoc, List.append_assoc]

theorem mergeBatch_empty_left (a : BatchResult) : mergeBatch emptyBatch a = a := by
  simp [mergeBatch, emptyBatch]

theorem processBatch_cons (now : String) (wr : ArticleInsert → Except String Unit)
    (p : MongoPost) (ps : List MongoPost) (channelId : String) :
    processBatch now wr (p :: ps) channelId
      = mergeBatch (processPost now wr channelId emptyBatch p)
          (processBatch now wr ps channelId) := by
  have key : ∀ (l : List MongoPost) (acc : BatchResult),
      l.foldl (processPost now wr channelId) acc
        = mergeBatch acc (l.foldl (processPost now wr channelId) emptyBatch) := by
    intro l
    induction l with
    | nil => intro acc; simp [List.foldl, mergeBatch, emptyBatch]
    | cons q qs ih =>
      intro acc
      simp only [List.foldl]
      rw [ih (processPost now wr channelId acc q),
        ih (processPost now wr channelId emptyBatch q)]
      rw [processPost_acc now wr channelId acc q]
      rw [mergeBatch_assoc]
  show (p :: ps).foldl (processPost now wr channelId) emptyBatch = _
  simp only [List.foldl]
  rw [key ps (processPost now wr channelId emptyBatch p)]
  rfl

theorem processBatch_append (now : String) (wr : ArticleInsert → Except String Unit)
    (l₁ l₂ : List MongoPost) (channelId : String) :
    processBatch now wr (l₁ ++ l₂) channelId
      = mergeBatch (processBatch now wr l₁ channelId) (processBatch now wr l₂ channelId) := by
  induction l₁ with
  | nil =>
    simp only [List.nil_append]
    rw [show processBatch now wr [] channelId = emptyBatch from rfl, mergeBatch_empty_left]
  | cons p ps ih =>
    simp only [List.cons_append]
    rw [processBatch_cons, processBatch_cons, ih, mergeBatch_assoc]

theorem processPost_step_counts (now : String) (wr : ArticleInsert → Except String Unit)
    (channelId : String) (post : MongoPost) :
    (processPost now wr channelId emptyBatch post).successful
        + (processPost now wr channelId emptyBatch post).failed
        + (processPost now wr channelId emptyBatch post).skipped = 1 ∧
      (processPost now wr channelId emptyBatch post).errors.length
        = (processPost now wr channelId emptyBatch post).failed := by
  simp only [processPost]
  by_cases h1 : (transformPost now post channelId).success = false
  · rw [if_pos h1]
    by_cases h2 : (transformPost now post channelId).skipped = true
    · rw [if_pos h2]
      simp [emptyBatch]
    · rw [if_neg h2]
      simp [emptyBatch]
  · rw [if_neg h1]
    cases hd : (transformPost now post channelId).data with
    | none => simp [emptyBatch]
    | some d =>
      cases hw : wr { data := d, analysis_completed := false, migrated_at := now } with
      | ok u => simp [hw, emptyBatch]
      | error e => simp [hw, emptyBatch]

/-- C10: counter partition — for every batch of posts and channel id, the
result of `processBatch` satisfies `successful + failed + skipped = number of
posts`, and the length of the returned error list equals the failed count. -/
theorem processBatch_counter_partition (now : String)
    (wr : ArticleInsert → Except String Unit) (posts : List MongoPost)
    (channelId : String) :
    (processBatch now wr posts channelId).successful
        + (processBatch now wr posts channelId).failed
        + (processBatch now wr posts channelId).skipped = posts.length ∧
      (processBatch now wr posts channelId).errors.length
        = (processBatch now wr posts channelId).failed := by
  induction posts with
  | nil => exact ⟨rfl, rfl⟩
  | cons p ps ih =>
    rw [processBatch_cons]
    have hs := processPost_step_counts now wr channelId p
    simp only [mergeBatch, List.length_append, List.length_cons]
    constructor
    · omega
    · omega

/-- C1: per-record failure isolation — if a single record `p` in a batch
fails (its transformation returns a non-skip failure, or its insert is
rejected), then processing the batch `pre ++ p :: suf` yields exactly the
result of processing `pre`, plus one failed count with one appended error
message for `p`, plus the result of processing `suf`: the records before and
after `p` are processed exactly as they would be without it and the batch is
not aborted. -/
theorem processBatch_per_record_failure_isolation (now : String)
    (wr : ArticleInsert → Except String Unit) (channelId : String)
    (pre suf : List MongoPost) (p : MongoPost)
    (h : ((transformPost now p channelId).success = false ∧
          (transformPost now p channelId).skipped = false) ∨
         ((transformPost now p channelId).success = true ∧
          ∃ d, (transformPost now p channelId).data = some d ∧
            ∃ e, wr { data := d, analysis_completed := false, migrated_at := now }
              = Except.error e)) :
    ∃ msg, processBatch now wr (pre ++ p :: suf) channelId
      = mergeBatch (processBatch now wr pre channelId)
          (mergeBatch
            { successful := 0, failed := 1, skipped := 0, errors := [msg], written := [] }
            (processBatch now wr suf channelId)) := by
  have hstep : ∃ msg, processPost now wr channelId emptyBatch p
      = { successful := 0, failed := 1, skipped := 0, errors := [msg], written := [] } := by
    rcases h with ⟨hf, hsk⟩ | ⟨hsucc, d, hd, e, hw⟩
    · refine ⟨"Post " ++ idToString p.id ++ ": "
        ++ (transformPost now p channelId).error.getD "undefined", ?_⟩
      simp only [processPost]
      rw [if_pos hf, if_neg (by rw [hsk]; simp)]
      simp [emptyBatch]
    · refine ⟨"Post " ++ idToString p.id ++ ": " ++ e, ?_⟩
      simp only [processPost]
      rw [if_neg (by rw [hsucc]; simp), hd]
      simp only [hw]
      simp [emptyBatch]
  obtain ⟨msg, hmsg⟩ := hstep
  refine ⟨msg, ?_⟩
  rw [processBatch_append, processBatch_cons, hmsg]

/-- A write oracle that rejects every insert. -/
def wrFail : ArticleInsert → Except String Unit := fun _ => Except.error "connection lost"

/-- Witness for C1: in a concrete three-record batch whose middle record's
insert is rejected, the failure stays local to that record. -/
theorem processBatch_per_record_failure_isolation_witness :
    ∃ msg, processBatch "t0" wrFail ([cpostA] ++ cpostC :: [cpostB]) "ch"
      = mergeBatch (processBatch "t0" wrFail [cpostA] "ch")
          (mergeBatch
            { successful := 0, failed := 1, skipped := 0, errors := [msg], written := [] }
            (processBatch "t0" wrFail [cpostB] "ch")) :=
  processBatch_per_record_failure_isolation "t0" wrFail "ch" [cpostA] [cpostB] cpostC
    (Or.inr ⟨by decide, (transformPost "t0" cpostC "ch").data.get (by decide),
      (Option.some_get _).symm, "connection lost", rfl⟩)

/-! ## Source reader (src/lib/mongodb.ts `fetchPosts`, `getPostCount`)

The posts collection is a list of documents; `find(query)` filters it,
`sort({_id: 1})` sorts ascending by id (insertion sort below), `skip`/`limit`
paginate.  Mongo's `limit(0)` means no limit. -/

/-- The `{ status, published_at?: {$gte,$lte} }` part of the query: a range
condition on a missing field matches nothing. -/
def postEligible (status : Int) (fromDate toDate : Option ℕ) (p : MongoPost) : Bool :=
  (p.status == some status) &&
  (match fromDate, toDate with
   | none, none => true
   | _, _ =>
     match p.published_at with
     | none => false
     | some t =>
       (match fromDate with | none => true | some f => f ≤ t) &&
       (match toDate with | none => true | some u => t ≤ u))

/-- The `_id: {$gt: lastId}` cursor condition. -/
def idAfter (lastId : Option ℕ) (p : MongoPost) : Bool :=
  match lastId with
  | none => true
  | some l => l < p.id

/-- Insertion into an id-sorted list (for the `sort({_id: 1})` model). -/
def insertById (p : MongoPost) : List MongoPost → List MongoPost
  | [] => [p]
  | q :: t => if p.id ≤ q.id then p :: q :: t else q :: insertById p t

/-- `sort({_id: 1})`. -/
def sortById (l : List MongoPost) : List MongoPost := l.foldr insertById []

/-- `limit(n)` — `limit(0)` is "no limit" in MongoDB. -/
def mongoLimit {α : Type} (n : ℕ) (l : List α) : List α :=
  if n = 0 then l else l.take n

/-- Model of `MongoDBService.fetchPosts`. -/
def fetchPosts (source : List MongoPost) (limit skip : ℕ)
    (fromDate toDate : Option ℕ) (status : Int) (lastId : Option ℕ) : List MongoPost :=
  mongoLimit limit
    (((sortById (source.filter
        (fun p => postEligible status fromDate toDate p && idAfter lastId p)))).drop skip)

/-- Model of `MongoDBService.getPostCount`. -/
def getPostCount (source : List MongoPost) (fromDate toDate : Option ℕ) : ℕ :=
  (source.filter (postEligible 1 fromDate toDate)).length

/-! ## `ETLService.migrateAllPosts` (src/unnamed/part_003 lines 178-296)

The relational orchestrator.  `ensureDefaultChannel` is an external
collaborator and enters the model as the resolved `channelId`.  The `while
(hasMore)` loop is written with an explicit iteration budget; every iteration
processes a non-empty batch and advances the id cursor past at least one
eligible record, so a budget of `source.length + 1` iterations is always
sufficient (the wrapper supplies it). -/

/-- `MigrationJob` (src/types/mongodb.ts). -/
structure MigrationJob where
  id : String
  source_db : String
  target_channel_id : String
  status : String
  total_records : ℕ
  processed_records : ℕ
  failed_records : ℕ
  error_message : Option String
  last_processed_id : Option String
deriving DecidableEq

/-- Mutable state of the migration loop. -/
structure RelLoopState where
  job : MigrationJob
  lastId : Option ℕ
  totalProcessed : ℕ
  totalFailed : ℕ
  allErrors : List String
  writes : List ArticleInsert
deriving DecidableEq

/-- The body of one `while (hasMore)` iteration for a fetched batch `posts`
(the loop only reaches this code with a non-empty batch): process the batch,
accumulate processed/failed counts and errors, and record the id of the last
fetched record as the resumption cursor — regardless of how many records
were skipped or failed. -/
def migrateBatchStep (now : String) (wr : ArticleInsert → Except String Unit)
    (channelId : String) (st : RelLoopState) (posts : List MongoPost) : RelLoopState :=
  let br := processBatch now wr posts channelId
  let totalProcessed := st.totalProcessed + br.successful + br.skipped
  let totalFailed := st.totalFailed + br.failed
  let lastId := posts.getLast?.map (fun p => p.id)
  let job1 := { st.job with processed_records := totalProcessed }
  let job2 := { job1 with failed_records := totalFailed }
  let job3 := { job2 with last_processed_id := lastId.map idToString }
  { job := job3, lastId := lastId, totalProcessed := totalProcessed,
    totalFailed := totalFailed, allErrors := st.allErrors ++ br.errors,
    writes := st.writes ++ br.written }

/-- The `while (hasMore)` loop with an explicit iteration budget. -/
def migrateRelLoop (now : String) (wr : ArticleInsert → Except String Unit)
    (source : List MongoPost) (bs : ℕ) (channelId : String)
    (fromDate toDate : Option ℕ) : ℕ → RelLoopState → RelLoopState
  | 0, st => st
  | fuel + 1, st =>
    let posts := fetchPosts source bs 0 fromDate toDate 1 st.lastId
    match posts with
    | [] => st
    | q :: qs =>
      migrateRelLoop now wr source bs channelId fromDate toDate fuel
        (migrateBatchStep now wr channelId st (q :: qs))

/-- Model of `ETLService.migrateAllPosts`: count, create the job record; in
dry-run mode return immediately with status completed and no writes;
otherwise run the batch loop and finalize the status. -/
def migrateAllPosts (now : String) (wr : ArticleInsert → Except String Unit)
    (source : List MongoPost) (bs : ℕ) (channelId : String)
    (fromDate toDate : Option ℕ) (dryRun : Bool) : MigrationJob × List ArticleInsert :=
  let totalCount := getPostCount source fromDate toDate
  let job0 : MigrationJob :=
    { id := "migration_" ++ now, source_db := "mongodb", target_channel_id := channelId,
      status := "running", total_records := totalCount, processed_records := 0,
      failed_records := 0, error_message := none, last_processed_id := none }
  if dryRun then ({ job0 with status := "completed" }, [])
  else
    let st := migrateRelLoop now wr source bs channelId fromDate toDate
      (source.length + 1)
      { job := job0, lastId := none, totalProcessed := 0, totalFailed := 0,
        allErrors := [], writes := [] }
    let jobF := if st.job.status ≠ "failed" then { st.job with status := "completed" }
                else st.job
    (jobF, st.writes)

/-- A write oracle that accepts every insert. -/
def wrOk : ArticleInsert → Except String Unit := fun _ => Except.ok ()

/-- C2: resumption cursor — for every non-empty batch returned by
`fetchPosts`, after the orchestrator's loop body processes that batch the
job's `last_processed_id` is the string form of the id of the last record of
the fetched batch, regardless of how many records were skipped or failed. -/
theorem migrateBatchStep_cursor_last_fetched (now : String)
    (wr : ArticleInsert → Except String Unit) (source : List MongoPost) (bs : ℕ)
    (channelId : String) (fromDate toDate : Option ℕ) (st : RelLoopState)
    (h : fetchPosts source bs 0 fromDate toDate 1 st.lastId ≠ []) :
    (migrateBatchStep now wr channelId st
        (fetchPosts source bs 0 fromDate toDate 1 st.lastId)).job.last_processed_id
      = some (idToString
          ((fetchPosts source bs 0 fromDate toDate 1 st.lastId).getLast h).id) := by
  simp only [migrateBatchStep]
  rw [List.getLast?_eq_getLast_of_ne_nil h]
  rfl

/-- Initial loop state over a fresh job, for the C2 witness. -/
def stInit : RelLoopState :=
  { job :=
      { id := "migration_t0", source_db := "mongodb", target_channel_id := "ch",
        status := "running", total_records := 1, processed_records := 0,
        failed_records := 0, error_message := none, last_processed_id := none },
    lastId := none, totalProcessed := 0, totalFailed := 0, allErrors := [], writes := [] }

/-- Witness for C2: a concrete non-empty fetched batch from a one-record
source. -/
theorem migrateBatchStep_cursor_last_fetched_witness :
    (migrateBatchStep "t0" wrOk "ch" stInit
        (fetchPosts [cpostC] 50 0 none none 1 stInit.lastId)).job.last_processed_id
      = some (idToString
          ((fetchPosts [cpostC] 50 0 none none 1 stInit.lastId).getLast (by decide)).id) :=
  migrateBatchStep_cursor_last_fetched "t0" wrOk [cpostC] 50 "ch" none none stInit (by decide)

/-- C9 counterexample: on a one-record source whose record passes validation,
a dry run of the relational orchestrator returns immediately after counting —
it reports `processed_records = 0` and performs no per-record transformation,
while a real run reports `processed_records = 1`; so a dry run does not
"report the counts a real run would have produced" on this path. -/
theorem migrateAllPosts_dryRun_counterexample :
    (migrateAllPosts "t0" wrOk [cpostC] 50 "ch" none none true).1.processed_records = 0 ∧
    (migrateAllPosts "t0" wrOk [cpostC] 50 "ch" none none false).1.processed_records = 1 ∧
    (migrateAllPosts "t0" wrOk [cpostC] 50 "ch" none none true).2 = [] ∧
    (migrateAllPosts "t0" wrOk [cpostC] 50 "ch" none none false).2.length = 1 := by
  refine ⟨rfl, ?_, rfl, ?_⟩
  · decide
  · decide

/-! ## `ETLService.categorizeEvent` (src/unnamed/part_002 lines 106-136)

Five keyword regexes of the form `/\b(kw1|kw2|...)\b/` are tried in a fixed
order against the lowercased `title + " " + content`; the first that matches
names the category, else "general".  `\b` holds between two positions whose
word-character status (`\w` = ASCII letters, digits, underscore) differs,
with out-of-string counting as non-word — Turkish letters such as `ç` are
not `\w`.  `toLowerCase()` is modelled on ASCII plus the Turkish uppercase
letters (identity elsewhere). -/

/-- `String.prototype.toLowerCase` on the alphabet the categorizer uses:
ASCII letters plus Ç, Ğ, İ, Ö, Ş, Ü. -/
def jsToLower (c : Char) : Char :=
  if 'A' ≤ c && c ≤ 'Z' then Char.ofNat (c.toNat + 32)
  else if c = 'Ç' then 'ç'
  else if c = 'Ğ' then 'ğ'
  else if c = 'İ' then 'i'
  else if c = 'Ö' then 'ö'
  else if c = 'Ş' then 'ş'
  else if c = 'Ü' then 'ü'
  else c

/-- Literal prefix test for the keyword characters. -/
def listStarts : List Char → List Char → Bool
  | [], _ => true
  | _ :: _, [] => false
  | k :: ks, c :: cs => (k = c) && listStarts ks cs

/-- Is the (possibly out-of-string) character a word character? -/
def optWordChar : Option Char → Bool
  | none => false
  | some c => isWordChar c

/-- Does the keyword match at the current position, `prev` being the
character just before it?  Requires the literal characters and a `\b`
boundary on each side: the word-character status must differ across the
keyword's first character and across its last character. -/
def kwMatchAt (prev : Option Char) (l kw : List Char) : Bool :=
  listStarts kw l &&
  (match kw with
   | [] => false
   | k0 :: _ => optWordChar prev != isWordChar k0) &&
  (match kw.getLast? with
   | none => false
   | some kl => isWordChar kl != optWordChar (l.drop kw.length).head?)

/-- Scan the text for a boundary-delimited occurrence of the keyword. -/
def kwSearch (kw : List Char) : Option Char → List Char → Bool
  | prev, l =>
    if kwMatchAt prev l kw then true
    else
      match l with
      | [] => false
      | c :: t => kwSearch kw (some c) t

/-- `/\b(...)\b/.test(text)` for one keyword alternative. -/
def kwMatch (text kw : List Char) : Bool := kwSearch kw none text

/-- Does any keyword of the alternation match? -/
def anyKw (text : List Char) (kws : List String) : Bool :=
  kws.any (fun k => kwMatch text k.toList)

def politicsKws : List String :=
  ["seçim", "parti", "milletvekili", "başkan", "hükümet", "meclis", "politika"]

def economyKws : List String :=
  ["ekonomi", "dolar", "euro", "borsa", "enflasyon", "faiz", "tcmb", "merkez bankası"]

def sportsKws : List String :=
  ["futbol", "basketbol", "spor", "maç", "takım", "galatasaray", "fenerbahçe", "beşiktaş"]

def technologyKws : List String :=
  ["teknoloji", "yapay zeka", "internet", "bilgisayar", "telefon", "uygulama"]

def healthKws : List String :=
  ["sağlık", "hastane", "doktor", "tedavi", "aşı", "covid", "corona"]

/-- The lowercased `` `${title} ${content}` `` the regexes run on. -/
def eventText (title content : String) : List Char :=
  ((title ++ " " ++ content).toList).map jsToLower

/-- Model of `ETLService.categorizeEvent`. -/
def categorizeEvent (title content : String) : String :=
  let text := eventText title content
  if anyKw text politicsKws then "politics"
  else if anyKw text economyKws then "economy"
  else if anyKw text sportsKws then "sports"
  else if anyKw text technologyKws then "technology"
  else if anyKw text healthKws then "health"
  else "general"

/-- C6's rule list exactly as the claim states it: an ordered list of
keyword rules in priority order politics, economy, sports, technology,
health.  Stated from the claim for the refinement comparison. -/
def eventRules : List (String × List String) :=
  [("politics", politicsKws), ("economy", economyKws), ("sports", sportsKws),
   ("technology", technologyKws), ("health", healthKws)]

/-- First-match-wins categorization over the ordered rule list, default
"general" — the claim's description of the algorithm. -/
def specCategorize (title content : String) : String :=
  match eventRules.find? (fun r => anyKw (eventText title content) r.2) with
  | some r => r.1
  | none => "general"

/-- C6: event categorization — the categorizer equals first-match-wins
evaluation of the fixed ordered rule list (politics, economy, sports,
technology, health; default "general"); in particular a text matching a
politics keyword classifies as "politics" even when it also matches an
economy keyword, and a text matching no rule classifies as "general". -/
theorem categorizeEvent_first_match (title content : String) :
    categorizeEvent title content = specCategorize title content ∧
    (anyKw (eventText title content) politicsKws = true →
      categorizeEvent title content = "politics") ∧
    ((anyKw (eventText title content) politicsKws = false ∧
      anyKw (eventText title content) economyKws = false ∧
      anyKw (eventText title content) sportsKws = false ∧
      anyKw (eventText title content) technologyKws = false ∧
      anyKw (eventText title content) healthKws = false) →
      categorizeEvent title content = "general") := by
  refine ⟨?_, ?_, ?_⟩
  · simp only [categorizeEvent, specCategorize, eventRules, List.find?]
    by_cases h1 : anyKw (eventText title content) politicsKws = true
    · simp [h1]
    · simp only [Bool.not_eq_true] at h1
      by_cases h2 : anyKw (eventText title content) economyKws = true
      · simp [h1, h2]
      · simp only [Bool.not_eq_true] at h2
        by_cases h3 : anyKw (eventText title content) sportsKws = true
        · simp [h1, h2, h3]
        · simp only [Bool.not_eq_true] at h3
          by_cases h4 : anyKw (eventText title content) technologyKws = true
          · simp [h1, h2, h3, h4]
          · simp only [Bool.not_eq_true] at h4
            by_cases h5 : anyKw (eventText title content) healthKws = true
            · simp [h1, h2, h3, h4, h5]
            · simp only [Bool.not_eq_true] at h5
              simp [h1, h2, h3, h4, h5]
  · intro h
    simp [categorizeEvent, h]
  · rintro ⟨h1, h2, h3, h4, h5⟩
    simp [categorizeEvent, h1, h2, h3, h4, h5]

/-- Witness for C6: "seçim dolar" matches both a politics keyword and an
economy keyword and classifies as "politics"; a keyword-free text classifies
as "general". -/
theorem categorizeEvent_first_match_witness :
    (categorizeEvent "seçim" "dolar" = "politics" ∧
     anyKw (eventText "seçim" "dolar") economyKws = true) ∧
    categorizeEvent "merhaba" "dünya" = "general" :=
  ⟨⟨(categorizeEvent_first_match "seçim" "dolar").2.1 (by decide), by decide⟩,
   (categorizeEvent_first_match "merhaba" "dünya").2.2 (by decide)⟩

/-! ## Vector-only ETL (src/unnamed/part_002)

`transformPostToVector` and `migrateToVectorOnly`.  `randomUUID()` is
modelled by an injected `uuid : ℕ → String` indexed by the running processed
count; the vector write `storeArticlesBatch` by an oracle
`vecWrite : List NewsArticleVector → Except String Unit`, with the list of
successfully stored articles accumulated as the visible effect. -/

/-- `NewsArticleVector` (src/lib/vector-service.ts). -/
structure NewsArticleVector where
  id : String
  channel_id : String
  title : String
  content : String
  published_at : ℕ
  categories : List String
  topics : List String
  political_score : Option Int
  event_category : Option String
  source_url : Option String
  original_mongo_id : Option String
deriving DecidableEq

/-- Result of `transformPostToVector`. -/
structure VecTransformResult where
  success : Bool
  data : Option NewsArticleVector
  error : Option String
  skipped : Bool
  skip_reason : Option String
deriving DecidableEq

/-- Model of `ETLService.transformPostToVector` (src/unnamed/part_002 lines
36-101): permissive validation, candidate-chain content extraction, cleaning,
a second too-short check, then the vector article with a fresh UUID and the
derived event category. -/
def transformPostToVector (uuidStr : String) (post : MongoPost) : VecTransformResult :=
  let validation := validatePostContentRelaxed post
  if validation.isValid = false then
    { success := false, data := none, error := none, skipped := true,
      skip_reason := some ("Validation failed: " ++ joinComma validation.issues) }
  else
    let rawContent := resolveContent post
    let cleanContent := cleanHtmlContent rawContent
    if cleanContent = "" ∨ (jsTrim cleanContent.toList).length < 5 then
      { success := false, data := none, error := none, skipped := true,
        skip_reason := some ("Content too short after cleaning: "
          ++ toString cleanContent.length ++ " characters") }
    else
      { success := true,
        data := some
          { id := uuidStr, channel_id := "mongodb-import", title := post.title,
            content := cleanContent,
            published_at := (post.published_at).getD post.created_at,
            categories := post.categories, topics := post.topics,
            political_score := none,
            event_category := some (categorizeEvent post.title cleanContent),
            source_url := if truthyStr post.slug then some ("/" ++ post.slug.getD "")
                          else none,
            original_mongo_id := some (idToString post.id) },
        error := none, skipped := false, skip_reason := none }

/-- `MigrationResult` (src/types/mongodb.ts).  The wall-clock `duration` is
not modelled and stays 0. -/
structure MigrationResult where
  success : Bool
  processed : ℕ
  inserted : ℕ
  skipped : ℕ
  errors : ℕ
  duration : ℕ
  error_details : List (String × String)
deriving DecidableEq

/-- The per-batch `for (const post of posts)` transformation fold of
`migrateToVectorOnly`: count each record as processed, then collect the
transformed vector articles, counting skips and transformation errors. -/
def vecTransformFold (uuid : ℕ → String) (posts : List MongoPost)
    (res : MigrationResult) : MigrationResult × List NewsArticleVector :=
  posts.foldl
    (fun acc post =>
      let k := acc.1.processed
      let r1 := { acc.1 with processed := k + 1 }
      let t := transformPostToVector (uuid k) post
      let errDetail := (idToString post.id, t.error.getD "Unknown transformation error")
      let rErr := { r1 with errors := r1.errors + 1, error_details := r1.error_details ++ [errDetail] }
      if t.skipped = true then ({ r1 with skipped := r1.skipped + 1 }, acc.2)
      else
        match t.data with
        | none => (rErr, acc.2)
        | some d =>
          if t.success = false then (rErr, acc.2)
          else (r1, acc.2 ++ [d]))
    (res, [])

/-- The `while` loop of `migrateToVectorOnly`, with an explicit iteration
budget: fetch a skip/limit batch, transform it, write the batch to the
vector store (or, in dry-run mode, only count it), advance the offset. -/
def migrateVecLoop (uuid : ℕ → String)
    (vecWrite : List NewsArticleVector → Except String Unit)
    (source : List MongoPost) (bs : ℕ) (fromDate toDate : Option ℕ)
    (totalPosts effLimit : ℕ) (dryRun : Bool) :
    ℕ → ℕ → MigrationResult → List NewsArticleVector →
      MigrationResult × List NewsArticleVector
  | 0, _, res, store => (res, store)
  | fuel + 1, currentOffset, res, store =>
    if currentOffset < totalPosts ∧ res.processed < effLimit then
      let remainingLimit := min bs (effLimit - res.processed)
      let posts := fetchPosts source remainingLimit currentOffset fromDate toDate 1 none
      match posts with
      | [] => (res, store)
      | q :: qs =>
        let folded := vecTransformFold uuid (q :: qs) res
        let res1 := folded.1
        let arts := folded.2
        let next :=
          if ¬ dryRun ∧ arts ≠ [] then
            match vecWrite arts with
            | Except.ok _ => ({ res1 with inserted := res1.inserted + arts.length },
                store ++ arts)
            | Except.error e =>
              ({ res1 with errors := res1.errors + arts.length, error_details := res1.error_details ++ [("batch", e)] }, store)
          else if dryRun then
            ({ res1 with inserted := res1.inserted + arts.length }, store)
          else (res1, store)
        migrateVecLoop uuid vecWrite source bs fromDate toDate totalPosts effLimit dryRun
          fuel (currentOffset + remainingLimit) next.1 next.2
    else (res, store)

/-- Model of `ETLService.migrateToVectorOnly` (src/unnamed/part_002 lines
141-309): count, compute the effective record limit (test cap 500, a
truthiness-guarded caller limit), then loop from the starting offset.  Every
loop iteration advances the offset or the processed count, so a budget of
`totalPosts + effLimit + 1` iterations is always sufficient. -/
def migrateToVectorOnly (uuid : ℕ → String)
    (vecWrite : List NewsArticleVector → Except String Unit)
    (source : List MongoPost) (bs : ℕ) (limit offset : Option ℕ)
    (fromDate toDate : Option ℕ) (dryRun : Bool) :
    MigrationResult × List NewsArticleVector :=
  let res0 : MigrationResult :=
    { success := true, processed := 0, inserted := 0, skipped := 0, errors := 0,
      duration := 0, error_details := [] }
  let totalPosts := getPostCount source fromDate toDate
  let currentOffset := offset.getD 0
  let effLimit :=
    match limit with
    | some l => if l = 0 then 500 else min l 500
    | none => 500
  migrateVecLoop uuid vecWrite source bs fromDate toDate totalPosts effLimit dryRun
    (totalPosts + effLimit + 1) currentOffset res0 []

/-- A vector write oracle that accepts every batch. -/
def vecOk : List NewsArticleVector → Except String Unit := fun _ => Except.ok ()

theorem migrateVecLoop_dry_eq (uuid : ℕ → String)
    (vecWrite : List NewsArticleVector → Except String Unit)
    (source : List MongoPost) (bs : ℕ) (fromDate toDate : Option ℕ)
    (totalPosts effLimit : ℕ) :
    ∀ (fuel currentOffset : ℕ) (res : MigrationResult)
      (store store' : List NewsArticleVector),
      (migrateVecLoop uuid vecWrite source bs fromDate toDate totalPosts effLimit true
          fuel currentOffset res store).1
        = (migrateVecLoop uuid vecOk source bs fromDate toDate totalPosts effLimit false
            fuel currentOffset res store').1 ∧
      (migrateVecLoop uuid vecWrite source bs fromDate toDate totalPosts effLimit true
          fuel currentOffset res store).2 = store := by
  intro fuel
  induction fuel with
  | zero => intro currentOffset res store store'; exact ⟨rfl, rfl⟩
  | succ fuel ih =>
    intro currentOffset res store store'
    simp only [migrateVecLoop]
    by_cases hg : currentOffset < totalPosts ∧ res.processed < effLimit
    · rw [if_pos hg, if_pos hg]
      cases hp : fetchPosts source (min bs (effLimit - res.processed)) currentOffset
          fromDate toDate 1 none with
      | nil => exact ⟨rfl, rfl⟩
      | cons q qs =>
        dsimp only
        by_cases ha : (vecTransformFold uuid (q :: qs) res).2 = []
        · simp only [ha]
          exact ih _ _ _ _
        · simp only [ha, ne_eq, not_true, not_false_iff, false_and, and_true, if_false,
            if_true, not_false_eq_true, vecOk]
          exact ih _ _ _ _
    · rw [if_neg hg, if_neg hg]
      exact ⟨rfl, rfl⟩

/-- C9 (amended): dry-run behavior differs between the two orchestrators.
In the relational orchestrator (`migrateAllPosts`), a dry run returns
immediately after counting: it issues no writes, but it also performs no
per-record transformation and reports status "completed" with zero
processed/failed counts (not the counts a real run would produce).  In the
vector-only orchestrator (`migrateToVectorOnly`), a dry run performs counting
and per-record transformation, issues no writes to the vector store, and
returns exactly the result a real run with all-successful writes would
report. -/
theorem dryRun_behavior_amended :
    (∀ (now : String) (wr : ArticleInsert → Except String Unit) (source : List MongoPost)
       (bs : ℕ) (channelId : String) (fromDate toDate : Option ℕ),
      (migrateAllPosts now wr source bs channelId fromDate toDate true).2 = [] ∧
      (migrateAllPosts now wr source bs channelId fromDate toDate true).1.status
        = "completed" ∧
      (migrateAllPosts now wr source bs channelId fromDate toDate true).1.processed_records
        = 0 ∧
      (migrateAllPosts now wr source bs channelId fromDate toDate true).1.failed_records
        = 0 ∧
      (migrateAllPosts now wr source bs channelId fromDate toDate true).1.total_records
        = getPostCount source fromDate toDate) ∧
    (∀ (uuid : ℕ → String) (vecWrite : List NewsArticleVector → Except String Unit)
       (source : List MongoPost) (bs : ℕ) (limit offset fromDate toDate : Option ℕ),
      (migrateToVectorOnly uuid vecWrite source bs limit offset fromDate toDate true).1
        = (migrateToVectorOnly uuid vecOk source bs limit offset fromDate toDate false).1 ∧
      (migrateToVectorOnly uuid vecWrite source bs limit offset fromDate toDate true).2
        = []) := by
  constructor
  · intro now wr source bs channelId fromDate toDate
    exact ⟨rfl, rfl, rfl, rfl, rfl⟩
  · intro uuid vecWrite source bs limit offset fromDate toDate
    exact migrateVecLoop_dry_eq uuid vecWrite source bs fromDate toDate _ _ _ _ _ _ _

/-! ## `VectorService.generateSimpleEmbedding` (src/lib/vector-service.ts lines 97-149)

The deterministic local fallback embedding.  IEEE-754 doubles are idealized
as real numbers (so the final L2 norm is exactly 1 rather than 1 within
1e-6); the 32-bit integer arithmetic of `simpleHash` (`<<`, `& hash`) is
explicit wrapping on `Int`. -/

/-- `ToInt32`: wrap an integer into `[-2^31, 2^31)`. -/
def wrap32 (n : ℤ) : ℤ := (n + 2 ^ 31) % 2 ^ 32 - 2 ^ 31

/-- One step of `hash = ((hash << 5) - hash) + charCode; hash = hash & hash`. -/
def hashStep (h : ℤ) (c : Char) : ℤ := wrap32 (wrap32 (h * 32) - h + (c.toNat : ℤ))

/-- `simpleHash` followed by the caller's `Math.abs`. -/
def simpleHash (w : List Char) : ℕ := (w.foldl hashStep 0).natAbs

/-- `text.match(/\w+/g) || []`: the maximal runs of word characters. -/
def tokenizeWords : List Char → List (List Char)
  | [] => []
  | c :: t =>
    let rest := tokenizeWords t
    if isWordChar c then
      match t with
      | [] => [[c]]
      | d :: _ =>
        if isWordChar d then
          match rest with
          | w :: ws => (c :: w) :: ws
          | [] => [[c]]
        else [c] :: rest
    else rest

/-- Increment a word's count in the frequency list (insertion order as in a
JavaScript object). -/
def bumpWord (w : List Char) : List (List Char × ℕ) → List (List Char × ℕ)
  | [] => [(w, 1)]
  | (x, k) :: t => if x = w then (x, k + 1) :: t else (x, k) :: bumpWord w t

/-- `wordFreq` as an association list in insertion order
(`Object.entries` order). -/
def wordFreqList (ws : List (List Char)) : List (List Char × ℕ) :=
  ws.foldl (fun acc w => bumpWord w acc) []

/-- `new Set(text.toLowerCase()).size`. -/
def uniqueCount (l : List Char) : ℕ := l.dedup.length

/-- `embedding[i] += x` on a fixed-length vector. -/
noncomputable def addAt (v : List ℝ) (i : ℕ) (x : ℝ) : List ℝ :=
  v.set i (v.getD i 0 + x)

/-- Scatter one word's normalized frequency over five hash-derived positions,
weighted by `Math.cos(i * 0.1)`. -/
noncomputable def scatterWord (D N : ℕ) (v : List ℝ) (wf : List Char × ℕ) : List ℝ :=
  (List.range 5).foldl
    (fun v i =>
      addAt v ((simpleHash wf.1 + i * 307) % D)
        (((wf.2 : ℝ) / (N : ℝ)) * Real.cos ((i : ℝ) * 0.1)))
    v

/-- Fill the still-zero entries among the first `min 100 D` dimensions with
`textLength * uniqueChars * Math.sin(i * 0.01) / 10000`. -/
noncomputable def fillStats (D textLen uniq : ℕ) (v : List ℝ) : List ℝ :=
  (List.range (min 100 D)).foldl
    (fun v i =>
      if v.getD i 0 = 0 then
        v.set i ((textLen : ℝ) * (uniq : ℝ) * Real.sin ((i : ℝ) * 0.01) / 10000)
      else v)
    v

/-- Sum of squares of the vector's entries. -/
noncomputable def sumSq (v : List ℝ) : ℝ := (v.map (fun x => x * x)).sum

/-- Model of `generateSimpleEmbedding`: tokenize the lowercased text, scatter
word frequencies, fill with text statistics, and L2-normalize unless the
magnitude is zero. -/
noncomputable def generateSimpleEmbedding (D : ℕ) (text : String) : List ℝ :=
  let lower := text.toList.map jsToLower
  let words := tokenizeWords lower
  let scattered := (wordFreqList words).foldl (scatterWord D words.length)
    (List.replicate D (0 : ℝ))
  let filled := fillStats D text.length (uniqueCount lower) scattered
  let magnitude := Real.sqrt (sumSq filled)
  if 0 < magnitude then filled.map (fun x => x / magnitude) else filled

/-! ### Shape lemmas for the fallback embedding -/

theorem foldl_inv {α β : Type} (P : α → Prop) (f : α → β → α) :
    ∀ (l : List β) (v : α), P v → (∀ w b, b ∈ l → P w → P (f w b)) → P (l.foldl f v) := by
  intro l
  induction l with
  | nil => intro v hv _; exact hv
  | cons b t ih =>
    intro v hv hstep
    exact ih (f v b)
      (hstep v b (List.mem_cons_self b t) hv)
      (fun w c hc hw => hstep w c (List.mem_cons_of_mem b hc) hw)

theorem getD_nonneg {v : List ℝ} (h : ∀ x ∈ v, 0 ≤ x) (i : ℕ) : 0 ≤ v.getD i 0 := by
  induction v generalizing i with
  | nil => simp [List.getD]
  | cons a t ih =>
    cases i with
    | zero => exact h a (List.mem_cons_self a t)
    | succ j =>
      exact ih (fun x hx => h x (List.mem_cons_of_mem a hx)) j

theorem getD_set_self {v : List ℝ} {i : ℕ} (h : i < v.length) (x : ℝ) :
    (v.set i x).getD i 0 = x := by
  induction v generalizing i with
  | nil => simp at h
  | cons a t ih =>
    cases i with
    | zero => rfl
    | succ j =>
      show (a :: t.set j x).getD (j + 1) 0 = x
      rw [List.getD_cons_succ]
      exact ih (by simpa using h)

theorem getD_set_ne {v : List ℝ} {i j : ℕ} (h : j ≠ i) (x : ℝ) :
    (v.set i x).getD j 0 = v.getD j 0 := by
  induction v generalizing i j with
  | nil => rfl
  | cons a t ih =>
    cases i with
    | zero =>
      cases j with
      | zero => exact absurd rfl h
      | succ k => rfl
    | succ i2 =>
      cases j with
      | zero => rfl
      | succ k =>
        show (a :: t.set i2 x).getD (k + 1) 0 = _
        rw [List.getD_cons_succ, List.getD_cons_succ]
        exact ih (fun he => h (by rw [he]))

theorem sum_set_real {v : List ℝ} {i : ℕ} (h : i < v.length) (x : ℝ) :
    (v.set i x).sum = v.sum - v.getD i 0 + x := by
  induction v generalizing i with
  | nil => simp at h
  | cons a t ih =>
    cases i with
    | zero =>
      show (x :: t).sum = (a :: t).sum - a + x
      simp [List.sum_cons]
      ring
    | succ j =>
      show (a :: t.set j x).sum = (a :: t).sum - t.getD j 0 + x
      simp only [List.sum_cons, ih (by simpa using h), List.getD_cons_succ]
      ring

theorem sum_addAt {v : List ℝ} {i : ℕ} (h : i < v.length) (x : ℝ) :
    (addAt v i x).sum = v.sum + x := by
  rw [addAt, sum_set_real h]
  ring

theorem length_addAt (v : List ℝ) (i : ℕ) (x : ℝ) : (addAt v i x).length = v.length :=
  List.length_set v i _

theorem nn_addAt {v : List ℝ} (hv : ∀ y ∈ v, 0 ≤ y) {x : ℝ} (hx : 0 ≤ x) :
    ∀ y ∈ addAt v i x, 0 ≤ y := by
  intro y hy
  rcases List.mem_or_eq_of_mem_set hy with h1 | h2
  · exact hv y h1
  · rw [h2]
    exact add_nonneg (getD_nonneg hv i) hx

theorem cos_pos_small {i : ℕ} (h : i < 5) : 0 < Real.cos ((i : ℝ) * 0.1) := by
  apply Real.cos_pos_of_mem_Ioo
  constructor
  · have h1 : (0 : ℝ) ≤ (i : ℝ) * 0.1 := by positivity
    have h2 : (0 : ℝ) < Real.pi := Real.pi_pos
    nlinarith
  · have h1 : (i : ℝ) ≤ 4 := by exact_mod_cast Nat.le_of_lt_succ h
    have h2 : (3 : ℝ) < Real.pi := Real.pi_gt_three
    nlinarith

theorem sin_nonneg_small {i : ℕ} (h : i < 100) : 0 ≤ Real.sin ((i : ℝ) * 0.01) := by
  apply Real.sin_nonneg_of_nonneg_of_le_pi
  · positivity
  · have h1 : (i : ℝ) ≤ 99 := by exact_mod_cast Nat.le_of_lt_succ h
    have h2 : (3 : ℝ) < Real.pi := Real.pi_gt_three
    nlinarith

theorem sin_pos_one : 0 < Real.sin ((1 : ℝ) * 0.01) := by
  apply Real.sin_pos_of_pos_of_lt_pi
  · norm_num
  · have h2 : (3 : ℝ) < Real.pi := Real.pi_gt_three
    nlinarith

theorem sumSq_nonneg (v : List ℝ) : 0 ≤ sumSq v := by
  apply List.sum_nonneg
  intro x hx
  rcases List.mem_map.mp hx with ⟨y, _, hy⟩
  rw [← hy]
  exact mul_self_nonneg y

theorem sumSq_cons (a : ℝ) (t : List ℝ) : sumSq (a :: t) = a * a + sumSq t := by
  rw [sumSq, List.map_cons, List.sum_cons]
  rfl

theorem sumSq_pos_of_entry {v : List ℝ} {j : ℕ} (hj : j < v.length)
    (hne : v.getD j 0 ≠ 0) : 0 < sumSq v := by
  induction v generalizing j with
  | nil => simp at hj
  | cons a t ih =>
    rw [sumSq_cons]
    cases j with
    | zero =>
      have ha : a ≠ 0 := by
        intro h
        exact hne (by rw [List.getD_cons_zero]; exact h)
      have h1 : 0 < a * a := by
        rcases lt_or_gt_of_ne ha with h | h
        · exact mul_pos_of_neg_of_neg h h
        · exact mul_pos h h
      have h2 : 0 ≤ sumSq t := sumSq_nonneg t
      linarith
    | succ k =>
      have hne2 : t.getD k 0 ≠ 0 := by
        intro h
        exact hne (by rw [List.getD_cons_succ]; exact h)
      have h1 : 0 < sumSq t := ih (by simpa using hj) hne2
      have h2 : 0 ≤ a * a := mul_self_nonneg a
      linarith

theorem sum_pos_exists {v : List ℝ} (h : 0 < v.sum) : ∃ x ∈ v, 0 < x := by
  induction v with
  | nil => simp at h
  | cons a t ih =>
    by_cases ha : 0 < a
    · exact ⟨a, List.mem_cons_self a t, ha⟩
    · push_neg at ha
      have : 0 < t.sum := by
        rw [List.sum_cons] at h
        linarith
      rcases ih this with ⟨x, hx, hpos⟩
      exact ⟨x, List.mem_cons_of_mem a hx, hpos⟩

theorem scatterSteps_inv (D N : ℕ) (hD : 0 < D) (wf : List Char × ℕ) (l : List ℕ)
    (hl5 : ∀ i ∈ l, i < 5) (v : List ℝ) (hlen : v.length = D)
    (hnn : ∀ y ∈ v, 0 ≤ y) :
    (l.foldl
        (fun w i =>
          addAt w ((simpleHash wf.1 + i * 307) % D)
            (((wf.2 : ℝ) / (N : ℝ)) * Real.cos ((i : ℝ) * 0.1)))
        v).length = D ∧
      (∀ y ∈ l.foldl
        (fun w i =>
          addAt w ((simpleHash wf.1 + i * 307) % D)
            (((wf.2 : ℝ) / (N : ℝ)) * Real.cos ((i : ℝ) * 0.1)))
        v, 0 ≤ y) ∧
      v.sum ≤ (l.foldl
        (fun w i =>
          addAt w ((simpleHash wf.1 + i * 307) % D)
            (((wf.2 : ℝ) / (N : ℝ)) * Real.cos ((i : ℝ) * 0.1)))
        v).sum := by
  refine foldl_inv
    (fun w => w.length = D ∧ (∀ y ∈ w, 0 ≤ y) ∧ v.sum ≤ w.sum) _ l v
    ⟨hlen, hnn, le_refl _⟩ ?_
  rintro w i hi ⟨hl, hn, hs⟩
  have hi5 : i < 5 := hl5 i hi
  have hval : 0 ≤ ((wf.2 : ℝ) / (N : ℝ)) * Real.cos ((i : ℝ) * 0.1) :=
    mul_nonneg (div_nonneg (Nat.cast_nonneg _) (Nat.cast_nonneg _))
      (le_of_lt (cos_pos_small hi5))
  have hpos : (simpleHash wf.1 + i * 307) % D < w.length := by
    rw [hl]
    exact Nat.mod_lt _ hD
  refine ⟨?_, nn_addAt hn hval, ?_⟩
  · rw [length_addAt, hl]
  · rw [sum_addAt hpos]
    linarith

theorem scatterWord_inv (D N : ℕ) (hD : 0 < D) (wf : List Char × ℕ) (v : List ℝ)
    (hlen : v.length = D) (hnn : ∀ y ∈ v, 0 ≤ y) :
    (scatterWord D N v wf).length = D ∧ (∀ y ∈ scatterWord D N v wf, 0 ≤ y) ∧
      v.sum ≤ (scatterWord D N v wf).sum := by
  rw [scatterWord]
  exact scatterSteps_inv D N hD wf (List.range 5) (fun i hi => List.mem_range.mp hi) v hlen hnn

theorem scatterWord_sum_lt (D N : ℕ) (hD : 0 < D) (e : List Char × ℕ)
    (hk : 1 ≤ e.2) (hN : 1 ≤ N) (v : List ℝ) (hlen : v.length = D)
    (hnn : ∀ y ∈ v, 0 ≤ y) :
    v.sum < (scatterWord D N v e).sum := by
  rw [scatterWord, show List.range 5 = 0 :: [1, 2, 3, 4] from rfl, List.foldl_cons]
  have hx0 : (0 : ℝ) < ((e.2 : ℝ) / (N : ℝ)) * Real.cos (((0 : ℕ) : ℝ) * 0.1) := by
    have hc : Real.cos (((0 : ℕ) : ℝ) * 0.1) = 1 := by
      norm_num [Real.cos_zero]
    rw [hc, mul_one]
    apply div_pos
    · exact_mod_cast hk
    · exact_mod_cast hN
  have hpos0 : (simpleHash e.1 + 0 * 307) % D < v.length := by
    rw [hlen]
    exact Nat.mod_lt _ hD
  have hsum1 := sum_addAt hpos0
    (((e.2 : ℝ) / (N : ℝ)) * Real.cos (((0 : ℕ) : ℝ) * 0.1))
  have hrest := scatterSteps_inv D N hD e [1, 2, 3, 4] (by decide)
    (addAt v ((simpleHash e.1 + 0 * 307) % D)
      (((e.2 : ℝ) / (N : ℝ)) * Real.cos (((0 : ℕ) : ℝ) * 0.1)))
    (by rw [length_addAt, hlen])
    (nn_addAt hnn (le_of_lt hx0))
  have := hrest.2.2
  rw [hsum1] at this
  linarith

theorem bumpWord_ne_nil (w : List Char) (acc : List (List Char × ℕ)) :
    bumpWord w acc ≠ [] := by
  cases acc with
  | nil => simp [bumpWord]
  | cons e t =>
    obtain ⟨x, k⟩ := e
    by_cases h : x = w <;> simp [bumpWord, h]

theorem wordFreqList_ne_nil {ws : List (List Char)} (h : ws ≠ []) :
    wordFreqList ws ≠ [] := by
  cases ws with
  | nil => exact absurd rfl h
  | cons w rest =>
    rw [wordFreqList, List.foldl_cons]
    refine foldl_inv (fun acc => acc ≠ []) _ rest _ (bumpWord_ne_nil w []) ?_
    intro acc b _ _
    exact bumpWord_ne_nil b acc

theorem bumpWord_counts {acc : List (List Char × ℕ)} (h : ∀ e ∈ acc, 1 ≤ e.2)
    (w : List Char) : ∀ e ∈ bumpWord w acc, 1 ≤ e.2 := by
  induction acc with
  | nil =>
    intro e he
    simp only [bumpWord, List.mem_singleton] at he
    rw [he]
  | cons a t ih =>
    obtain ⟨x, k⟩ := a
    intro e he
    by_cases hx : x = w
    · simp only [bumpWord, if_pos hx] at he
      rcases List.mem_cons.mp he with h1 | h2
      · rw [h1]
        exact Nat.succ_le_succ (Nat.zero_le k)
      · exact h e (List.mem_cons_of_mem _ h2)
    · simp only [bumpWord, if_neg hx] at he
      rcases List.mem_cons.mp he with h1 | h2
      · rw [h1]
        exact h (x, k) (List.mem_cons_self _ _)
      · exact ih (fun e2 he2 => h e2 (List.mem_cons_of_mem _ he2)) e h2

theorem wordFreqList_counts (ws : List (List Char)) :
    ∀ e ∈ wordFreqList ws, 1 ≤ e.2 := by
  rw [wordFreqList]
  refine foldl_inv
    (fun acc : List (List Char × ℕ) => ∀ e ∈ acc, 1 ≤ e.2) _ ws [] (by simp) ?_
  intro acc w _ hacc
  exact bumpWord_counts hacc w

theorem getD_replicate_zero (n j : ℕ) : (List.replicate n (0 : ℝ)).getD j 0 = 0 := by
  induction n generalizing j with
  | zero => simp [List.replicate, List.getD]
  | succ m ih =>
    cases j with
    | zero => rfl
    | succ k =>
      show (0 :: List.replicate m (0 : ℝ)).getD (k + 1) 0 = 0
      rw [List.getD_cons_succ]
      exact ih k

theorem set_zero_replicate (n i : ℕ) :
    (List.replicate n (0 : ℝ)).set i 0 = List.replicate n 0 := by
  induction n generalizing i with
  | zero => rfl
  | succ m ih =>
    cases i with
    | zero => rfl
    | succ k =>
      show (0 : ℝ) :: (List.replicate m (0 : ℝ)).set k 0 = _
      rw [ih k]
      rfl

theorem sum_replicate_zero (n : ℕ) : (List.replicate n (0 : ℝ)).sum = 0 := by
  induction n with
  | zero => rfl
  | succ m ih =>
    show ((0 : ℝ) :: List.replicate m 0).sum = 0
    rw [List.sum_cons, ih, add_zero]

theorem sumSq_replicate_zero (n : ℕ) : sumSq (List.replicate n (0 : ℝ)) = 0 := by
  induction n with
  | zero => rfl
  | succ m ih =>
    show sumSq ((0 : ℝ) :: List.replicate m 0) = 0
    rw [sumSq_cons, ih]
    ring

theorem nn_replicate (n : ℕ) : ∀ y ∈ List.replicate n (0 : ℝ), 0 ≤ y := by
  intro y hy
  rw [List.eq_of_mem_replicate hy]

theorem scattered_props (D N : ℕ) (hD : 0 < D) (entries : List (List Char × ℕ))
    (v : List ℝ) (hlen : v.length = D) (hnn : ∀ y ∈ v, 0 ≤ y) :
    (entries.foldl (scatterWord D N) v).length = D ∧
      (∀ y ∈ entries.foldl (scatterWord D N) v, 0 ≤ y) ∧
      v.sum ≤ (entries.foldl (scatterWord D N) v).sum := by
  refine foldl_inv
    (fun w => w.length = D ∧ (∀ y ∈ w, 0 ≤ y) ∧ v.sum ≤ w.sum)
    (scatterWord D N) entries v ⟨hlen, hnn, le_refl _⟩ ?_
  rintro w e _ ⟨hl, hn, hs⟩
  obtain ⟨h1, h2, h3⟩ := scatterWord_inv D N hD e w hl hn
  exact ⟨h1, h2, le_trans hs h3⟩

theorem scattered_sum_pos (D N : ℕ) (hD : 0 < D) (hN : 1 ≤ N)
    (e : List Char × ℕ) (rest : List (List Char × ℕ)) (hk : 1 ≤ e.2) :
    0 < ((e :: rest).foldl (scatterWord D N) (List.replicate D 0)).sum ∧
      ((e :: rest).foldl (scatterWord D N) (List.replicate D 0)).length = D ∧
      (∀ y ∈ (e :: rest).foldl (scatterWord D N) (List.replicate D 0), 0 ≤ y) := by
  rw [List.foldl_cons]
  have hrep : (List.replicate D (0 : ℝ)).length = D := List.length_replicate D 0
  have hlt := scatterWord_sum_lt D N hD e hk hN (List.replicate D 0) hrep (nn_replicate D)
  rw [sum_replicate_zero] at hlt
  obtain ⟨hl1, hn1, _⟩ := scatterWord_inv D N hD e (List.replicate D 0) hrep (nn_replicate D)
  obtain ⟨hl2, hn2, hs2⟩ := scattered_props D N hD rest _ hl1 hn1
  exact ⟨lt_of_lt_of_le hlt hs2, hl2, hn2⟩

theorem fillStats_inv (D L U : ℕ) (v : List ℝ) (hlen : v.length = D)
    (hnn : ∀ y ∈ v, 0 ≤ y) :
    (fillStats D L U v).length = D ∧ (∀ y ∈ fillStats D L U v, 0 ≤ y) ∧
      (∀ j, 0 < v.getD j 0 → 0 < (fillStats D L U v).getD j 0) := by
  rw [fillStats]
  refine foldl_inv
    (fun w => w.length = D ∧ (∀ y ∈ w, 0 ≤ y) ∧
      (∀ j, 0 < v.getD j 0 → 0 < w.getD j 0)) _ _ v
    ⟨hlen, hnn, fun j hj => hj⟩ ?_
  rintro w i hi ⟨hl, hn, hkeep⟩
  have hi100 : i < 100 := by
    have := List.mem_range.mp hi
    omega
  have hval : 0 ≤ (L : ℝ) * (U : ℝ) * Real.sin ((i : ℝ) * 0.01) / 10000 := by
    apply div_nonneg _ (by norm_num)
    exact mul_nonneg (mul_nonneg (Nat.cast_nonneg _) (Nat.cast_nonneg _))
      (sin_nonneg_small hi100)
  by_cases hz : w.getD i 0 = 0
  · rw [if_pos hz]
    refine ⟨by rw [List.length_set, hl], ?_, ?_⟩
    · intro y hy
      rcases List.mem_or_eq_of_mem_set hy with h1 | h2
      · exact hn y h1
      · rw [h2]
        exact hval
    · intro j hj
      by_cases hji : j = i
      · rw [hji] at hj ⊢
        have := hkeep i (hji ▸ hj)
        rw [hz] at this
        exact absurd this (lt_irrefl 0)
      · rw [getD_set_ne hji]
        exact hkeep j hj
  · rw [if_neg hz]
    exact ⟨hl, hn, hkeep⟩

theorem sumSq_map_div (v : List ℝ) (m : ℝ) :
    sumSq (v.map (fun x => x / m)) = sumSq v / (m * m) := by
  induction v with
  | nil =>
    show sumSq ([] : List ℝ) = sumSq ([] : List ℝ) / (m * m)
    rw [show sumSq ([] : List ℝ) = 0 from rfl, zero_div]
  | cons a t ih =>
    rw [List.map_cons, sumSq_cons, sumSq_cons, ih, div_mul_div_comm, div_add_div_same]

theorem fillStats_entry_one (D L U : ℕ) (hD : 2 ≤ D) (hL : 1 ≤ L) (hU : 1 ≤ U) :
    0 < (fillStats D L U (List.replicate D 0)).getD 1 0 ∧
      (fillStats D L U (List.replicate D 0)).length = D ∧
      (∀ y ∈ fillStats D L U (List.replicate D 0), 0 ≤ y) := by
  obtain ⟨m, hm⟩ : ∃ m, min 100 D = m + 2 := ⟨min 100 D - 2, by omega⟩
  have hm100 : m + 2 ≤ 100 := by omega
  rw [fillStats, hm,
    show List.range (m + 2) = 0 :: 1 :: List.range' 2 m from by
      rw [List.range_eq_range']; rfl,
    List.foldl_cons, List.foldl_cons]
  rw [if_pos (getD_replicate_zero D 0)]
  rw [show (L : ℝ) * (U : ℝ) * Real.sin (((0 : ℕ) : ℝ) * 0.01) / 10000 = 0 from by
    norm_num [Real.sin_zero]]
  rw [set_zero_replicate]
  rw [if_pos (getD_replicate_zero D 1)]
  have hc1pos : 0 < (L : ℝ) * (U : ℝ) * Real.sin (((1 : ℕ) : ℝ) * 0.01) / 10000 := by
    apply div_pos _ (by norm_num)
    apply mul_pos
    · apply mul_pos
      · exact_mod_cast hL
      · exact_mod_cast hU
    · have := sin_pos_one
      simpa using this
  have hv1len :
      ((List.replicate D (0 : ℝ)).set 1
        ((L : ℝ) * (U : ℝ) * Real.sin (((1 : ℕ) : ℝ) * 0.01) / 10000)).length = D := by
    rw [List.length_set, List.length_replicate]
  have hv1nn : ∀ y ∈ (List.replicate D (0 : ℝ)).set 1
      ((L : ℝ) * (U : ℝ) * Real.sin (((1 : ℕ) : ℝ) * 0.01) / 10000), 0 ≤ y := by
    intro y hy
    rcases List.mem_or_eq_of_mem_set hy with h1 | h2
    · exact nn_replicate D y h1
    · rw [h2]
      exact le_of_lt hc1pos
  have hv1get : ((List.replicate D (0 : ℝ)).set 1
      ((L : ℝ) * (U : ℝ) * Real.sin (((1 : ℕ) : ℝ) * 0.01) / 10000)).getD 1 0
      = (L : ℝ) * (U : ℝ) * Real.sin (((1 : ℕ) : ℝ) * 0.01) / 10000 :=
    getD_set_self (by rw [List.length_replicate]; omega) _
  have hmain := foldl_inv
    (fun w => 0 < w.getD 1 0 ∧ w.length = D ∧ (∀ y ∈ w, 0 ≤ y))
    (fun w i =>
      if w.getD i 0 = 0 then
        w.set i ((L : ℝ) * (U : ℝ) * Real.sin ((i : ℝ) * 0.01) / 10000)
      else w)
    (List.range' 2 m) _
    ⟨by rw [hv1get]; exact hc1pos, hv1len, hv1nn⟩ ?_
  · exact ⟨hmain.1, hmain.2.1, hmain.2.2⟩
  · rintro w i hi ⟨hget, hl, hn⟩
    dsimp only
    have hi100 : i < 100 := by
      have := List.mem_range'_1.mp hi
      omega
    have hval : 0 ≤ (L : ℝ) * (U : ℝ) * Real.sin ((i : ℝ) * 0.01) / 10000 := by
      apply div_nonneg _ (by norm_num)
      exact mul_nonneg (mul_nonneg (Nat.cast_nonneg _) (Nat.cast_nonneg _))
        (sin_nonneg_small hi100)
    by_cases hz : w.getD i 0 = 0
    · rw [if_pos hz]
      refine ⟨?_, by rw [List.length_set, hl], ?_⟩
      · by_cases hij : (1 : ℕ) = i
        · rw [← hij] at hz
          rw [hz] at hget
          exact absurd hget (lt_irrefl 0)
        · rw [getD_set_ne hij]
          exact hget
      · intro y hy
        rcases List.mem_or_eq_of_mem_set hy with h1 | h2
        · exact hn y h1
        · rw [h2]
          exact hval
    · rw [if_neg hz]
      exact ⟨hget, hl, hn⟩

theorem fillStats_zero_len (D U : ℕ) :
    fillStats D 0 U (List.replicate D 0) = List.replicate D 0 := by
  rw [fillStats]
  refine foldl_inv (fun w => w = List.replicate D (0 : ℝ)) _ _ _ rfl ?_
  rintro w i _ hw
  dsimp only
  rw [hw, if_pos (getD_replicate_zero D i)]
  rw [show ((0 : ℕ) : ℝ) * (_ : ℝ) * Real.sin ((i : ℝ) * 0.01) / 10000 = 0 from by
    norm_num]
  exact set_zero_replicate D i

theorem generateSimpleEmbedding_empty (D : ℕ) :
    generateSimpleEmbedding D "" = List.replicate D 0 := by
  have h : generateSimpleEmbedding D "" =
      (if 0 < Real.sqrt (sumSq (fillStats D 0 0 (List.replicate D 0))) then
        (fillStats D 0 0 (List.replicate D 0)).map
          (fun x => x / Real.sqrt (sumSq (fillStats D 0 0 (List.replicate D 0))))
      else fillStats D 0 0 (List.replicate D 0)) := rfl
  rw [h, fillStats_zero_len, sumSq_replicate_zero, Real.sqrt_zero,
    if_neg (lt_irrefl (0 : ℝ))]

/-- The `filled` vector of `generateSimpleEmbedding` before normalization. -/
noncomputable def embFilled (D : ℕ) (text : String) : List ℝ :=
  fillStats D text.length (uniqueCount (text.toList.map jsToLower))
    ((wordFreqList (tokenizeWords (text.toList.map jsToLower))).foldl
      (scatterWord D (tokenizeWords (text.toList.map jsToLower)).length)
      (List.replicate D 0))

theorem generateSimpleEmbedding_eq (D : ℕ) (text : String) :
    generateSimpleEmbedding D text =
      if 0 < Real.sqrt (sumSq (embFilled D text)) then
        (embFilled D text).map (fun x => x / Real.sqrt (sumSq (embFilled D text)))
      else embFilled D text := rfl

theorem embFilled_pos (D : ℕ) (text : String) (hD : 2 ≤ D) (htext : text ≠ "") :
    0 < sumSq (embFilled D text) ∧ (embFilled D text).length = D := by
  have hD0 : 0 < D := by omega
  have hlist : text.toList ≠ [] := by
    intro h
    apply htext
    cases text with
    | mk data =>
      simp only [String.toList] at h
      rw [h]
  have hL : 1 ≤ text.length := by
    rw [show text.length = text.toList.length from rfl]
    exact Nat.pos_of_ne_zero (fun h0 => hlist (List.length_eq_zero.mp h0))
  have hlower : text.toList.map jsToLower ≠ [] := by
    intro h
    exact hlist (List.map_eq_nil_iff.mp h)
  have hU : 1 ≤ uniqueCount (text.toList.map jsToLower) := by
    rw [uniqueCount]
    refine Nat.pos_of_ne_zero (fun h0 => hlower ?_)
    exact (List.dedup_eq_nil _).mp (List.length_eq_zero.mp h0)
  cases hw : tokenizeWords (text.toList.map jsToLower) with
  | nil =>
    simp only [embFilled, hw]
    rw [show wordFreqList [] = [] from rfl, List.foldl_nil]
    obtain ⟨hpos, hlen, _⟩ :=
      fillStats_entry_one D text.length (uniqueCount (text.toList.map jsToLower)) hD hL hU
    exact ⟨sumSq_pos_of_entry (by rw [hlen]; omega) (ne_of_gt hpos), hlen⟩
  | cons e ws =>
    simp only [embFilled, hw]
    have hN : 1 ≤ (e :: ws).length := by simp
    obtain ⟨f, fs, hfe⟩ :=
      List.exists_cons_of_ne_nil (wordFreqList_ne_nil (List.cons_ne_nil e ws))
    have hf1 : 1 ≤ f.2 :=
      wordFreqList_counts (e :: ws) f (by rw [hfe]; exact List.mem_cons_self f fs)
    rw [hfe]
    obtain ⟨hsum, hlen, hnn⟩ := scattered_sum_pos D (e :: ws).length hD0 hN f fs hf1
    obtain ⟨x, hxmem, hxpos⟩ := sum_pos_exists hsum
    obtain ⟨j, hj, hxj⟩ := List.mem_iff_getElem.mp hxmem
    have hgd : ((f :: fs).foldl (scatterWord D (e :: ws).length)
        (List.replicate D 0)).getD j 0 = x := by
      rw [List.getD_eq_getElem _ _ hj, hxj]
    obtain ⟨hflen, _, hkeep⟩ := fillStats_inv D text.length
      (uniqueCount (text.toList.map jsToLower)) _ hlen hnn
    have hpos := hkeep j (by rw [hgd]; exact hxpos)
    refine ⟨sumSq_pos_of_entry ?_ (ne_of_gt hpos), hflen⟩
    rw [hflen, ← hlen]
    exact hj

/-- **C4.** Fallback embedding shape: for every text and dimension `D ≥ 2`
(the configured vectorSize is 1536), `generateSimpleEmbedding` returns a
vector of length exactly `D`; when the text is non-empty the result has
L2 norm exactly 1 (in the real-number idealization of JavaScript doubles);
when the text is empty the result is the all-zero vector of length `D`. -/
theorem generateSimpleEmbedding_shape (D : ℕ) (text : String) (hD : 2 ≤ D) :
    (generateSimpleEmbedding D text).length = D ∧
      (text ≠ "" → Real.sqrt (sumSq (generateSimpleEmbedding D text)) = 1) ∧
      (text = "" → generateSimpleEmbedding D text = List.replicate D 0) := by
  by_cases htext : text = ""
  · subst htext
    rw [generateSimpleEmbedding_empty]
    exact ⟨List.length_replicate D 0, fun h => absurd rfl h, fun _ => rfl⟩
  · obtain ⟨hpos, hlen⟩ := embFilled_pos D text hD htext
    have hm : 0 < Real.sqrt (sumSq (embFilled D text)) := Real.sqrt_pos.mpr hpos
    have hg : generateSimpleEmbedding D text =
        (embFilled D text).map (fun x => x / Real.sqrt (sumSq (embFilled D text))) := by
      rw [generateSimpleEmbedding_eq, if_pos hm]
    refine ⟨?_, fun _ => ?_, fun h => absurd h htext⟩
    · rw [hg, List.length_map, hlen]
    · rw [hg, sumSq_map_div, Real.mul_self_sqrt (le_of_lt hpos),
        div_self (ne_of_gt hpos), Real.sqrt_one]

/-- Witness for C4: the shape theorem instantiated at the configured
dimension 1536 and a concrete Turkish text. -/
theorem generateSimpleEmbedding_shape_witness :
    2 ≤ 1536 ∧ ((generateSimpleEmbedding 1536 "merhaba").length = 1536 ∧
      ("merhaba" ≠ "" →
        Real.sqrt (sumSq (generateSimpleEmbedding 1536 "merhaba")) = 1) ∧
      ("merhaba" = "" →
        generateSimpleEmbedding 1536 "merhaba" = List.replicate 1536 0)) :=
  ⟨by decide, generateSimpleEmbedding_shape 1536 "merhaba" (by decide)⟩

/-! ### C5: generateEmbedding fallback and batch storage -/

/-- Model of `VectorService.generateEmbedding` (vector-service.ts lines
154-173).  `remote = none` models a `VectorService` without an OpenAI client
(`this.openai` undefined); `remote = some f` models the client, where
`f text` is the awaited remote call, returning the embedding or throwing.
The surrounding try/catch makes the function total: on a missing client or
on any thrown error it returns the deterministic local fallback, so the
return type carries no error at all. -/
noncomputable def generateEmbedding (D : ℕ)
    (remote : Option (String → Except String (List ℝ))) (text : String) :
    List ℝ :=
  match remote with
  | none => generateSimpleEmbedding D text
  | some f =>
    match f text with
    | Except.ok v => v
    | Except.error _ => generateSimpleEmbedding D text

/-- The Qdrant point payload built in `storeArticlesBatch` (vector-service.ts
lines 322-334).  `published_at.toISOString()` is modelled as the numeric
timestamp itself. -/
structure VPayload where
  channel_id : String
  title : String
  content : String
  content_preview : String
  published_at : ℕ
  categories : List String
  topics : List String
  political_score : Option Int
  event_category : Option String
  source_url : Option String
  original_mongo_id : Option String

/-- A Qdrant point as pushed onto `points`. -/
structure VPoint where
  id : String
  vector : List ℝ
  payload : VPayload

/-- The payload for one article (vector-service.ts lines 322-334);
`content_preview` is `article.content.substring(0, 500)`. -/
def mkPayload (a : NewsArticleVector) : VPayload :=
  { channel_id := a.channel_id, title := a.title, content := a.content,
    content_preview := (a.content.toList.take 500).asString,
    published_at := a.published_at, categories := a.categories,
    topics := a.topics, political_score := a.political_score,
    event_category := a.event_category, source_url := a.source_url,
    original_mongo_id := a.original_mongo_id }

/-- The `points` list built by the per-article loop of `storeArticlesBatch`
(vector-service.ts lines 313-347).  The loop body's own try/catch can drop an
article only if something in the body throws; in the model every body
operation is total (in particular `generateEmbedding` never throws), so every
article yields exactly one point. -/
noncomputable def storePoints (D : ℕ)
    (remote : Option (String → Except String (List ℝ)))
    (articles : List NewsArticleVector) : List VPoint :=
  articles.map (fun a =>
    { id := a.id,
      vector := generateEmbedding D remote (a.title ++ "\n\n" ++ a.content),
      payload := mkPayload a })

/-- Model of `VectorService.storeArticlesBatch` (vector-service.ts lines
302-370): early return on an empty batch, build the points, and upsert them
once when any exist; a failure of the upsert itself is re-thrown. -/
noncomputable def storeArticlesBatch (D : ℕ)
    (remote : Option (String → Except String (List ℝ)))
    (upsert : List VPoint → Except String Unit)
    (articles : List NewsArticleVector) : Except String Unit :=
  if articles.length = 0 then Except.ok ()
  else
    let points := storePoints D remote articles
    if 0 < points.length then upsert points else Except.ok ()

/-- **C5.** Embedding errors never propagate: with no remote client, and with
a remote call that throws, `generateEmbedding` returns the deterministic
local fallback embedding rather than raising; consequently, when every remote
embedding call fails and the vector store's upsert succeeds, a batch is fully
stored — the call returns success and the upserted points are exactly one per
article, each carrying the fallback embedding of `title ++ "\n\n" ++
content`, with no article counted as a failure. -/
theorem generateEmbedding_never_fails (D : ℕ) (text : String)
    (f : String → Except String (List ℝ)) (err : String)
    (upsert : List VPoint → Except String Unit)
    (articles : List NewsArticleVector)
    (hf : ∀ t, f t = Except.error err)
    (hup : ∀ pts, upsert pts = Except.ok ()) :
    generateEmbedding D none text = generateSimpleEmbedding D text ∧
      generateEmbedding D (some f) text = generateSimpleEmbedding D text ∧
      storeArticlesBatch D (some f) upsert articles = Except.ok () ∧
      storePoints D (some f) articles =
        articles.map (fun a =>
          ({ id := a.id,
             vector := generateSimpleEmbedding D (a.title ++ "\n\n" ++ a.content),
             payload := mkPayload a } : VPoint)) := by
  refine ⟨rfl, ?_, ?_, ?_⟩
  · simp only [generateEmbedding, hf]
  · rw [storeArticlesBatch]
    by_cases h0 : articles.length = 0
    · rw [if_pos h0]
    · rw [if_neg h0]
      have hpos : 0 < (storePoints D (some f) articles).length := by
        rw [storePoints, List.length_map]
        omega
      rw [if_pos hpos]
      exact hup _
  · simp only [storePoints, generateEmbedding, hf]

/-- A remote embedding call that always throws. -/
def remoteFailW : String → Except String (List ℝ) := fun _ => Except.error "quota"

/-- An upsert that always succeeds. -/
def upsertOkW : List VPoint → Except String Unit := fun _ => Except.ok ()

/-- A concrete vector article. -/
def articleW : NewsArticleVector :=
  { id := "u0", channel_id := "mongodb-import", title := "T", content := "C",
    published_at := 0, categories := [], topics := [], political_score := none,
    event_category := none, source_url := none, original_mongo_id := none }

/-- Witness for C5: an always-failing remote call and an always-succeeding
upsert over a one-article batch. -/
theorem generateEmbedding_never_fails_witness :
    (∀ t, remoteFailW t = Except.error "quota") ∧
      (∀ pts, upsertOkW pts = Except.ok ()) ∧
      (generateEmbedding 4 none "abc" = generateSimpleEmbedding 4 "abc" ∧
        generateEmbedding 4 (some remoteFailW) "abc"
          = generateSimpleEmbedding 4 "abc" ∧
        storeArticlesBatch 4 (some remoteFailW) upsertOkW [articleW]
          = Except.ok () ∧
        storePoints 4 (some remoteFailW) [articleW] =
          [articleW].map (fun a =>
            ({ id := a.id,
               vector := generateSimpleEmbedding 4 (a.title ++ "\n\n" ++ a.content),
               payload := mkPayload a } : VPoint))) :=
  ⟨fun _ => rfl, fun _ => rfl,
    generateEmbedding_never_fails 4 "abc" remoteFailW "quota" upsertOkW [articleW]
      (fun _ => rfl) (fun _ => rfl)⟩
